import Mathlib

/-!
Verification of the table orchestration layer of `dialog_table.h`
(namespace `dialog`, class `dialog_table`): the append pipeline, the
read-tail visibility boundary, index lifecycle management
(`add_index`/`remove_index`), filter/trigger registration, and the
read/visibility path (`ptr`/`read`/`get`/`num_records`).

The table state and its operations are a shallow embedding of the source.
Collaborators that the header consumes through narrow interfaces (the
monolog data log, the read tail, the schema and column state machine, the
radix-tree index handle, the filter object, the expression compiler, the
metadata writer) are not part of the source tree; they are modelled from
the specification, each marked `Modelled from the spec:` in its doc
comment. Machine integers (`uint64_t`, `size_t`, `uint16_t`, `uint32_t`)
are modelled as `Nat`; overflow is immaterial at the sizes involved.
-/

namespace Dialog

/-- Column type tags, from `type_id` (`D_BOOL` … `D_STRING`); `D_NONE`
stands for any type tag not covered by the `switch` in `add_index`
(its `default:` branch). -/
inductive type_id where
  | D_BOOL | D_CHAR | D_SHORT | D_INT | D_LONG
  | D_FLOAT | D_DOUBLE | D_STRING | D_NONE
  deriving DecidableEq, Repr

/-- Modelled from the spec: `col.type().size`, the type's byte width
(§4.2 "keyed on the type's byte width"). The exact widths are those of
the corresponding C types; the string width is a fixed slot width. -/
def type_size : type_id → Nat
  | .D_BOOL => 1
  | .D_CHAR => 1
  | .D_SHORT => 2
  | .D_INT => 4
  | .D_LONG => 8
  | .D_FLOAT => 4
  | .D_DOUBLE => 8
  | .D_STRING => 8
  | .D_NONE => 0

/-- Modelled from the spec: per-column indexing state, an atomic state
machine with states UNINDEXED, INDEXING, INDEXED(index_id, bucket_size)
(§3, §9). `bucket_size` (a `double` in the source) is carried opaquely,
modelled as `Nat`. -/
inductive indexing_state where
  | UNINDEXED
  | INDEXING
  | INDEXED (index_id : Nat) (bucket_size : Nat)
  deriving DecidableEq, Repr

/-- Modelled from the spec: a `column_t` is `{name, type, byte offset
within record, indexing state}` (§3); the name is stored upper-cased. -/
structure column_t where
  name : String
  ty : type_id
  col_offset : Nat
  idx_state : indexing_state
  deriving DecidableEq, Repr

namespace column_t

/-- Modelled from the spec: `set_indexing() -> bool`, the compare-and-swap
transition UNINDEXED → INDEXING; returns whether the caller won (§6, §9). -/
def set_indexing (c : column_t) : Bool × column_t :=
  match c.idx_state with
  | .UNINDEXED => (true, { c with idx_state := .INDEXING })
  | _ => (false, c)

/-- Modelled from the spec: `set_indexed(id, bucket_size)` (§6). -/
def set_indexed (c : column_t) (id bs : Nat) : column_t :=
  { c with idx_state := .INDEXED id bs }

/-- Modelled from the spec: `set_unindexed()` (§6). -/
def set_unindexed (c : column_t) : column_t :=
  { c with idx_state := .UNINDEXED }

/-- Modelled from the spec: `disable_indexing() -> bool`, the transition
INDEXED/INDEXING → UNINDEXED; fails (returns false) when the column has no
index (§4.2, §6). -/
def disable_indexing (c : column_t) : Bool × column_t :=
  match c.idx_state with
  | .UNINDEXED => (false, c)
  | _ => (true, { c with idx_state := .UNINDEXED })

/-- Whether the column is currently INDEXED (the per-field `is_indexed`
check of the ingestion pipeline reads this state). -/
def is_indexed (c : column_t) : Bool :=
  match c.idx_state with
  | .INDEXED _ _ => true
  | _ => false

/-- The column's index id when INDEXED (0 otherwise; only read behind
`is_indexed`). -/
def index_id (c : column_t) : Nat :=
  match c.idx_state with
  | .INDEXED id _ => id
  | _ => 0

end column_t

/-- Modelled from the spec: a `field_t` of a materialized record:
`{value, is_indexed flag, index_id if indexed, key derived from value}`
(§3); the flag and id are snapshot from the owning column at
materialization time, the key is the field's value bytes. -/
structure field_t where
  value : List Nat
  is_indexed_flag : Bool
  f_index_id : Nat
  deriving DecidableEq, Repr

namespace field_t

/-- The field's `is_indexed()` accessor. -/
def is_indexed (f : field_t) : Bool := f.is_indexed_flag

/-- The field's `index_id()` accessor. -/
def index_id (f : field_t) : Nat := f.f_index_id

/-- Modelled from the spec: `get_key()`, the key derived from the field's
value (§3). -/
def get_key (f : field_t) : List Nat := f.value

end field_t

/-- Modelled from the spec: a `record_t` is the ephemeral typed view of one
append: `{log offset, timestamp, sequence of Fields}` (§3). -/
structure record_t where
  log_offset : Nat
  timestamp : Nat
  fields : List field_t
  deriving DecidableEq, Repr

/-- Modelled from the spec: a schema is an ordered sequence of columns
(§3); the name → position map is derived from the (upper-cased) names. -/
structure schema_t where
  columns : List column_t
  deriving DecidableEq, Repr

/-- A placeholder column (never produced by a well-formed lookup). -/
def dummy_column : column_t :=
  { name := "", ty := .D_NONE, col_offset := 0, idx_state := .UNINDEXED }

/-- Modelled from the spec: `string_utils::to_upper` (a repository utility
outside the source tree): case-normalization by upper-casing every
character (§3 "Name is case-normalized (upper-cased) for lookup"). -/
def to_upper (s : String) : String := ⟨s.data.map Char.toUpper⟩

/-- Position of the first column with the given (already upper-cased)
name. -/
def find_name : List column_t → String → Option Nat
  | [], _ => none
  | c :: cs, n => if c.name = n then some 0 else (find_name cs n).map (· + 1)

namespace schema_t

/-- Modelled from the spec: `schema_.name_map.at(to_upper(name))`, the
case-insensitive name → position lookup; `none` models the
`std::out_of_range` the source catches (§4.2 step 1). -/
def name_map_at (s : schema_t) (field_name : String) : Option Nat :=
  find_name s.columns (to_upper field_name)

/-- The column at position `i` (`schema_[idx]`). -/
def colAt (s : schema_t) (i : Nat) : column_t :=
  s.columns.getD i dummy_column

/-- Modelled from the spec: `schema_.apply(offset, data, limit, ts)`
materializes the payload bytes into a `record_t` tagged with the offset
and timestamp; each field's value is the byte slice of its column, and
its `is_indexed`/`index_id` are snapshot from the column's state at
materialization time (§3, §4.1 step 2). -/
def apply (s : schema_t) (offset : Nat) (data : List Nat) (ts : Nat) : record_t :=
  { log_offset := offset,
    timestamp := ts,
    fields := s.columns.map (fun c =>
      { value := (data.drop c.col_offset).take (type_size c.ty),
        is_indexed_flag := c.is_indexed,
        f_index_id := c.index_id }) }

end schema_t

/-- Modelled from the spec: the Data Log (`monolog_linear`), an append-only
byte store with a durability watermark: all bytes below `flushed` have been
flushed (§2, §6). -/
structure monolog_t where
  data : List Nat
  flushed : Nat
  deriving DecidableEq, Repr

namespace monolog_t

/-- Modelled from the spec: `append(bytes) -> offset`; the offset equals
the log's prior length (§4.1 step 1, §6). -/
def append (m : monolog_t) (bytes : List Nat) : Nat × monolog_t :=
  (m.data.length, { m with data := m.data ++ bytes })

/-- Modelled from the spec: `flush(offset, length)` makes the byte range
`[offset, offset+length)` durable (§4.1 step 5, §6). -/
def flush (m : monolog_t) (offset length : Nat) : monolog_t :=
  { m with flushed := max m.flushed (offset + length) }

/-- Modelled from the spec: `read(offset, length)` copies `length` bytes
starting at `offset` out of the log (§6). -/
def read (m : monolog_t) (offset length : Nat) : List Nat :=
  (m.data.drop offset).take length

/-- Modelled from the spec: `cptr(offset)`, the address of the byte at
`offset`; addresses are modelled as offsets from the log base (§6). -/
def cptr (_m : monolog_t) (offset : Nat) : Nat := offset

end monolog_t

/-- Modelled from the spec: a radix-tree index handle
(`new radix_tree(key_width, bucket_width)`), recording its construction
parameters and the multiset of `(key, offset)` insertions (§3, §6). -/
structure radix_tree where
  key_width : Nat
  bucket_width : Nat
  entries : List (List Nat × Nat)
  deriving DecidableEq, Repr

/-- Modelled from the spec: `insert(key, offset)` on an index handle (§6). -/
def radix_tree.insert (t : radix_tree) (key : List Nat) (offset : Nat) : radix_tree :=
  { t with entries := t.entries ++ [(key, offset)] }

/-- Modelled from the spec: a compiled expression is an opaque handle to
the predicate produced by the expression compiler (§6); only its identity
matters to the core. -/
structure compiled_expression where
  src : String
  deriving DecidableEq, Repr

/-- Modelled from the spec: a filter is a compiled predicate plus an
evaluation window, with aggregation state accumulated across `update`
calls; the state is modelled as the sequence of records passed to
`update`, in call order (§3, §6). -/
structure filter where
  cexpr : compiled_expression
  monitor_ms : Nat
  updates : List record_t
  deriving DecidableEq, Repr

/-- Modelled from the spec: `update(record)`, the side-effecting
per-record evaluation entry point of a filter (§6). -/
def filter.update (f : filter) (r : record_t) : filter :=
  { f with updates := f.updates ++ [r] }

/-- Aggregate tags (`aggregate_id`); the particular aggregates are opaque
to the orchestration layer. -/
inductive aggregate_id where
  | D_SUM | D_MIN | D_MAX | D_CNT | D_AVG
  deriving DecidableEq, Repr

/-- Relational-operator tags (`relop_id`); opaque to the orchestration
layer. -/
inductive relop_id where
  | D_LT | D_LE | D_GT | D_GE | D_EQ | D_NEQ
  deriving DecidableEq, Repr

/-- Numeric threshold values (`numeric_t`), carried opaquely. -/
abbrev numeric_t := Int

/-- Modelled from the spec: a trigger is the pure data holder
`{filter_id, op, threshold}` (§3, §6), per `new trigger(filter_id, op,
threshold)`. -/
structure trigger where
  t_filter_id : Nat
  op : relop_id
  threshold : numeric_t
  deriving DecidableEq, Repr

/-- Modelled from the spec: one record of the append-only Metadata
Catalog, written by `write_index_info` / `write_filter_info` /
`write_trigger_info` (§6). -/
inductive metadata_entry where
  | index_info (index_id : Nat) (field_name : String) (bucket_size : Nat)
  | filter_info (filter_id : Nat) (expression : String)
  | trigger_info (trigger_id filter_id : Nat) (agg : aggregate_id)
      (field_name : String) (op : relop_id) (threshold : numeric_t)
  deriving DecidableEq, Repr

/-- The exceptions thrown by the orchestration layer: `management_exception`
from the management interface, `parse_exception` from the expression
compiler. -/
inductive dialog_exception where
  | management_exception (msg : String)
  | parse_exception (msg : String)
  deriving DecidableEq, Repr

/-- Modelled from the spec: `expression_compiler::compile(expression,
schema)`; the grammar is out of scope (§1), so compilation is modelled
abstractly: it fails with a parse error exactly on the empty (unparseable)
expression and otherwise yields the opaque compiled predicate. -/
def expression_compiler.compile (expression : String) (_s : schema_t) :
    Except dialog_exception compiled_expression :=
  if expression = "" then
    .error (.parse_exception "parse error")
  else
    .ok { src := expression }

/-- Replace the element at position `i` of a list by applying `g` to it;
out-of-range positions leave the list unchanged (models in-place mutation
of `schema_[idx]` and `idx_.at(id)`). -/
def modAt {α : Type} : List α → Nat → (α → α) → List α
  | [], _, _ => []
  | a :: as, 0, g => g a :: as
  | a :: as, n + 1, g => a :: modAt as n g

/-- The table state of `dialog_table`: the data log, the read tail, the
schema, the metadata writer's output, and the in-memory filter, trigger
and index registries (`filters_`, `triggers_`, `idx_`). `fcalls` records
the observable sequence of `filter::update` invocations (filter position,
record offset) performed by the loop at `dialog_table.h:141-142`, in call
order; it affects no behaviour. The unused auxiliary logs `idx_bool_`,
`idx1_` … `idx8_` are omitted: no operation touches them. -/
structure dialog_table where
  data_log : monolog_t
  rt : Nat
  schema : schema_t
  metadata : List metadata_entry
  filters : List filter
  triggers : List trigger
  idx : List radix_tree
  fcalls : List (Nat × Nat)
  deriving DecidableEq, Repr

/-- Modelled from the spec: the switch over `col.type().id` in `add_index`
(`dialog_table.h:77-94`) as a partial map from type tag to radix-tree
construction parameters `(key width, bucket width)`: booleans get the
minimal 2-valued structure `radix_tree(1, 2)`, every other supported type
gets `radix_tree(type size, 256)`, and the `default:` branch (no
construction rule) is `none`. -/
def index_params : type_id → Option (Nat × Nat)
  | .D_BOOL => some (1, 2)
  | .D_CHAR => some (type_size .D_CHAR, 256)
  | .D_SHORT => some (type_size .D_SHORT, 256)
  | .D_INT => some (type_size .D_INT, 256)
  | .D_LONG => some (type_size .D_LONG, 256)
  | .D_FLOAT => some (type_size .D_FLOAT, 256)
  | .D_DOUBLE => some (type_size .D_DOUBLE, 256)
  | .D_STRING => some (type_size .D_STRING, 256)
  | .D_NONE => none

/-- The index-insertion loop of `append` (`dialog_table.h:144-146`): for
every field of the record with `is_indexed()`, insert `(key, offset)`
into the tree at `idx_.at(index_id())`. -/
def insert_record (idx : List radix_tree) (flds : List field_t) (offset : Nat) :
    List radix_tree :=
  match flds with
  | [] => idx
  | f :: fs =>
      insert_record
        (if f.is_indexed then modAt idx f.index_id (fun e => e.insert f.get_key offset) else idx)
        fs offset

namespace dialog_table

/-- Translation of `add_index(field_name, bucket_size)`
(`dialog_table.h:64-101`): resolve the upper-cased name, CAS the column
UNINDEXED → INDEXING, pick radix-tree parameters from the type (rolling
back to UNINDEXED and failing on an unsupported type), push the new tree
onto `idx_` to obtain `index_id`, mark the column INDEXED and write the
index info to the metadata catalog. The thrown `management_exception`s
are returned as `.error`; the table component is the state after the
call. -/
def add_index (t : dialog_table) (field_name : String) (bucket_size : Nat) :
    dialog_table × Except dialog_exception Unit :=
  match t.schema.name_map_at field_name with
  | none =>
      (t, .error (.management_exception ("Could not add index for " ++ field_name)))
  | some i =>
      let col := t.schema.colAt i
      if (col.set_indexing).1 then
        let s1 : schema_t := ⟨modAt t.schema.columns i (fun c => (c.set_indexing).2)⟩
        match index_params col.ty with
        | none =>
            ({ t with schema := ⟨modAt s1.columns i column_t.set_unindexed⟩ },
             .error (.management_exception "Index not supported for field type"))
        | some (kw, bw) =>
            let index_id := t.idx.length
            ({ t with
                schema := ⟨modAt s1.columns i (fun c => c.set_indexed index_id bucket_size)⟩,
                idx := t.idx ++ [⟨kw, bw, []⟩],
                metadata := t.metadata ++ [.index_info index_id field_name bucket_size] },
             .ok ())
      else
        (t, .error (.management_exception
          ("Could not index " ++ field_name ++ ": already indexed/indexing")))

/-- Translation of `remove_index(field_name)` (`dialog_table.h:103-116`):
resolve the name and disable indexing on the column; fail when the name
does not resolve or the column has no index. -/
def remove_index (t : dialog_table) (field_name : String) :
    dialog_table × Except dialog_exception Unit :=
  match t.schema.name_map_at field_name with
  | none =>
      (t, .error (.management_exception ("Could not remove index for " ++ field_name)))
  | some i =>
      if ((t.schema.colAt i).disable_indexing).1 then
        ({ t with schema := ⟨modAt t.schema.columns i (fun c => (c.disable_indexing).2)⟩ },
         .ok ())
      else
        (t, .error (.management_exception
          ("Could not remove index for " ++ field_name ++ ": No index exists")))

/-- Translation of `add_filter(expression, monitor_ms)`
(`dialog_table.h:118-123`): compile the expression (propagating the
compiler's exception), push a new filter onto `filters_` to obtain
`filter_id`, write the filter info to the metadata catalog, and return
the id. -/
def add_filter (t : dialog_table) (expression : String) (monitor_ms : Nat) :
    dialog_table × Except dialog_exception Nat :=
  match expression_compiler.compile expression t.schema with
  | .error e => (t, .error e)
  | .ok cexpr =>
      let filter_id := t.filters.length
      ({ t with
          filters := t.filters ++ [{ cexpr := cexpr, monitor_ms := monitor_ms, updates := [] }],
          metadata := t.metadata ++ [.filter_info filter_id expression] },
       .ok filter_id)

/-- Translation of `add_trigger(filter_id, field_name, agg, op, threshold)`
(`dialog_table.h:125-133`): push a new trigger onto `triggers_` to obtain
`trigger_id`, write the trigger info to the metadata catalog, and return
the id. -/
def add_trigger (t : dialog_table) (filter_id : Nat) (field_name : String)
    (agg : aggregate_id) (op : relop_id) (threshold : numeric_t) :
    dialog_table × Nat :=
  let trigger_id := t.triggers.length
  ({ t with
      triggers := t.triggers ++ [{ t_filter_id := filter_id, op := op, threshold := threshold }],
      metadata := t.metadata ++
        [.trigger_info trigger_id filter_id agg field_name op threshold] },
   trigger_id)

/-- The record materialized by `schema_.apply(offset, data, offset +
length, ts)` for an append issued in state `t` (`dialog_table.h:138`);
its offset is the data log's length prior to the append. -/
def append_record (t : dialog_table) (data : List Nat) (ts : Nat) : record_t :=
  t.schema.apply t.data_log.data.length data ts

/-- State after step 1 of `append` (`dialog_table.h:137`): the payload is
appended to the data log. -/
def append_s1 (t : dialog_table) (data : List Nat) : dialog_table :=
  { t with data_log := (t.data_log.append data).2 }

/-- State after steps 1-3 of `append` (`dialog_table.h:137-142`): the
record has additionally been fed to every registered filter, in
registration order. -/
def append_s2 (t : dialog_table) (data : List Nat) (ts : Nat) : dialog_table :=
  let r := t.append_record data ts
  let t1 := t.append_s1 data
  { t1 with
      filters := t1.filters.map (fun f => f.update r),
      fcalls := t1.fcalls ++ (List.range t1.filters.length).map (fun i => (i, r.log_offset)) }

/-- State after steps 1-4 of `append` (`dialog_table.h:137-146`): every
indexed field's key has additionally been inserted into its index. -/
def append_s3 (t : dialog_table) (data : List Nat) (ts : Nat) : dialog_table :=
  let r := t.append_record data ts
  let t2 := t.append_s2 data ts
  { t2 with idx := insert_record t2.idx r.fields r.log_offset }

/-- State after steps 1-5 of `append` (`dialog_table.h:137-148`): the
byte range of the record has additionally been flushed for durability. -/
def append_s4 (t : dialog_table) (data : List Nat) (ts : Nat) : dialog_table :=
  let t3 := t.append_s3 data ts
  { t3 with data_log := t3.data_log.flush t.data_log.data.length data.length }

/-- Translation of `append(data, length, ts)` (`dialog_table.h:135-151`):
after the five steps above, `rt_.advance(offset, length)` moves the read
tail past `offset + length` (the advance itself is modelled from the
spec, §4.1 step 6, `read_tail` being out of the source tree); the offset
is returned. -/
def append (t : dialog_table) (data : List Nat) (ts : Nat) : dialog_table × Nat :=
  let offset := t.data_log.data.length
  ({ t.append_s4 data ts with rt := offset + data.length }, offset)

/-- Translation of `ptr(offset, tail)` (`dialog_table.h:153-157`): a
pointer into the data log when `offset < tail`, null (`none`) otherwise. -/
def ptr (t : dialog_table) (offset tail : Nat) : Option Nat :=
  if offset < tail then some (t.data_log.cptr offset) else none

/-- Translation of `ptr(offset)` (`dialog_table.h:159-161`): `ptr` against
a freshly fetched tail. -/
def ptr_cur (t : dialog_table) (offset : Nat) : Option Nat :=
  t.ptr offset t.rt

/-- Translation of `read(offset, data, length, tail)`
(`dialog_table.h:163-169`): when `offset < tail`, copy `length` bytes out
of the data log and return true; otherwise return false (the out
parameter, untouched by the source, is modelled as `[]`). -/
def read (t : dialog_table) (offset length tail : Nat) : Bool × List Nat :=
  if offset < tail then (true, t.data_log.read offset length) else (false, [])

/-- Translation of `get(offset, data, length)` (`dialog_table.h:171-173`):
`read` against a freshly fetched tail. -/
def get (t : dialog_table) (offset length : Nat) : Bool × List Nat :=
  t.read offset length t.rt

/-- Translation of `num_records()` (`dialog_table.h:175-177`): the current
read-tail value. -/
def num_records (t : dialog_table) : Nat := t.rt

end dialog_table

/-- Modelled from the spec: schema construction from an ordered column
list (the `dialog_table` constructor, `dialog_table.h:48-61`): names are
case-normalized to upper case and byte offsets within the record are
assigned cumulatively from the type widths (§3). -/
def mk_columns : List (String × type_id) → Nat → List column_t
  | [], _ => []
  | (n, ty) :: rest, off =>
      { name := to_upper n, ty := ty, col_offset := off, idx_state := .UNINDEXED } ::
        mk_columns rest (off + type_size ty)

/-- A freshly constructed table over the given column list: empty data
log, read tail at 0, empty registries and catalog. -/
def init_table (cols : List (String × type_id)) : dialog_table :=
  { data_log := { data := [], flushed := 0 },
    rt := 0,
    schema := ⟨mk_columns cols 0⟩,
    metadata := [],
    filters := [],
    triggers := [],
    idx := [],
    fcalls := [] }

/-- One operation of the table's public management/ingestion surface. -/
inductive table_op where
  | op_append (data : List Nat) (ts : Nat)
  | op_add_index (field_name : String) (bucket_size : Nat)
  | op_remove_index (field_name : String)
  | op_add_filter (expression : String) (monitor_ms : Nat)
  | op_add_trigger (filter_id : Nat) (field_name : String) (agg : aggregate_id)
      (op : relop_id) (threshold : numeric_t)
  deriving DecidableEq, Repr

/-- The state transition of one operation (return values and exceptions
discarded). -/
def run (t : dialog_table) : table_op → dialog_table
  | .op_append d ts => (t.append d ts).1
  | .op_add_index f bs => (t.add_index f bs).1
  | .op_remove_index f => (t.remove_index f).1
  | .op_add_filter e w => (t.add_filter e w).1
  | .op_add_trigger fid fn a o th => (t.add_trigger fid fn a o th).1

/-- The state after a sequence of operations. -/
def runs (t : dialog_table) (ops : List table_op) : dialog_table :=
  ops.foldl run t

/-- The visible facts about one append in a run: its offset, payload,
timestamp, the number of filters registered when it ran, and the record
it materialized. -/
structure append_info where
  offset : Nat
  data : List Nat
  ts : Nat
  nfilters : Nat
  rcd : record_t
  deriving DecidableEq, Repr

/-- One operation step, also accumulating the `append_info` of every
append in the run. -/
def step_h (p : dialog_table × List append_info) (op : table_op) :
    dialog_table × List append_info :=
  match op with
  | .op_append d ts =>
      (run p.1 (.op_append d ts),
       p.2 ++ [{ offset := p.1.data_log.data.length, data := d, ts := ts,
                 nfilters := p.1.filters.length, rcd := p.1.append_record d ts }])
  | op => (run p.1 op, p.2)

/-- A run that also accumulates the `append_info` of every append. -/
def runs_h (p : dialog_table × List append_info) (ops : List table_op) :
    dialog_table × List append_info :=
  ops.foldl step_h p

/-- The records materialized by the appends of `ops` when run from `t`,
in execution order. -/
def append_recs (t : dialog_table) : List table_op → List record_t
  | [] => []
  | .op_append d ts :: ops =>
      t.append_record d ts :: append_recs (run t (.op_append d ts)) ops
  | .op_add_index f bs :: ops => append_recs (run t (.op_add_index f bs)) ops
  | .op_remove_index f :: ops => append_recs (run t (.op_remove_index f)) ops
  | .op_add_filter e w :: ops => append_recs (run t (.op_add_filter e w)) ops
  | .op_add_trigger fid fn a o th :: ops =>
      append_recs (run t (.op_add_trigger fid fn a o th)) ops

/-- A sequence of appends with the given payloads (timestamps fixed at 0,
which no offset computation depends on), returning the final state and
the list of returned offsets in order. -/
def append_all : dialog_table → List (List Nat) → dialog_table × List Nat
  | t, [] => (t, [])
  | t, d :: ds =>
      let p := t.append d 0
      let q := append_all p.1 ds
      (q.1, p.2 :: q.2)

/-- The `(key, offset)` pairs inserted so far into the index handle at
position `k` of an index registry (empty for an absent position). -/
def entries_of (idx : List radix_tree) (k : Nat) : List (List Nat × Nat) :=
  ((idx.get? k).map radix_tree.entries).getD []

/-- The records fed so far to the filter at position `i` of the table's
filter registry (empty for an absent position). -/
def updates_at (t : dialog_table) (i : Nat) : List record_t :=
  ((t.filters.get? i).map filter.updates).getD []

/-- The `(key, offset)` pairs inserted so far into the table's index
handle `idx_.at(k)`. -/
def entries_at (t : dialog_table) (k : Nat) : List (List Nat × Nat) :=
  entries_of t.idx k

/-- All side effects of the append described by `a` are present in state
`t`: its record has been fed to each of the filters registered when it
ran, and each of its indexed fields' keys is in its index entry. -/
def applied (t : dialog_table) (a : append_info) : Prop :=
  (∀ i, i < a.nfilters → a.rcd ∈ updates_at t i) ∧
  (∀ fl ∈ a.rcd.fields, fl.is_indexed = true →
    (fl.get_key, a.offset) ∈ entries_at t fl.index_id)

/-- Every INDEXED column's index id addresses an existing entry of the
index registry. -/
def wf_idx_ids (t : dialog_table) : Prop :=
  ∀ c ∈ t.schema.columns, ∀ id bs, c.idx_state = .INDEXED id bs → id < t.idx.length

/-- The reachable-state invariant of a run with history: the read tail
never exceeds the durable watermark, which never exceeds the log length;
the log is exactly the concatenation of the appended payloads, at
contiguous offsets; index ids are well formed; and every recorded
append's side effects are present. -/
def table_inv (p : dialog_table × List append_info) : Prop :=
  p.1.rt ≤ p.1.data_log.flushed ∧
  p.1.data_log.flushed ≤ p.1.data_log.data.length ∧
  p.1.rt = (p.2.map (fun a => a.data.length)).sum ∧
  p.1.data_log.data = (p.2.map append_info.data).flatten ∧
  (∀ i a, p.2.get? i = some a →
    a.offset = ((p.2.take i).map (fun b => b.data.length)).sum) ∧
  wf_idx_ids p.1 ∧
  (∀ a ∈ p.2, applied p.1 a)

/-- Whether an operation is an `add_filter` call. -/
def is_add_filter : table_op → Bool
  | .op_add_filter _ _ => true
  | _ => false

/-! ### Lemmas about in-place list surgery and name lookup -/

theorem modAt_length {α : Type} (l : List α) (i : Nat) (g : α → α) :
    (modAt l i g).length = l.length := by
  induction l generalizing i with
  | nil => rfl
  | cons a as ih =>
    cases i with
    | zero => rfl
    | succ n => simp [modAt, ih]

theorem get?_modAt_self {α : Type} (l : List α) (i : Nat) (g : α → α) :
    (modAt l i g).get? i = (l.get? i).map g := by
  induction l generalizing i with
  | nil => cases i <;> rfl
  | cons a as ih =>
    cases i with
    | zero => rfl
    | succ n => simpa [modAt] using ih n

theorem get?_modAt_ne {α : Type} (l : List α) (i j : Nat) (g : α → α) (h : j ≠ i) :
    (modAt l i g).get? j = l.get? j := by
  induction l generalizing i j with
  | nil => rfl
  | cons a as ih =>
    cases i with
    | zero =>
      cases j with
      | zero => exact absurd rfl h
      | succ m => rfl
    | succ n =>
      cases j with
      | zero => rfl
      | succ m => exact ih n m (fun hh => h (by omega))

theorem modAt_modAt {α : Type} (l : List α) (i : Nat) (f g : α → α) :
    modAt (modAt l i f) i g = modAt l i (fun a => g (f a)) := by
  induction l generalizing i with
  | nil => rfl
  | cons a as ih =>
    cases i with
    | zero => rfl
    | succ n => simp [modAt, ih]

theorem modAt_eq_self {α : Type} (l : List α) (i : Nat) (g : α → α)
    (h : ∀ a, l.get? i = some a → g a = a) : modAt l i g = l := by
  induction l generalizing i with
  | nil => rfl
  | cons a as ih =>
    cases i with
    | zero => simp [modAt, h a rfl]
    | succ n => simp [modAt]; exact ih n (fun b hb => h b hb)

theorem mem_modAt {α : Type} {l : List α} {i : Nat} {g : α → α} {c : α}
    (h : c ∈ modAt l i g) : c ∈ l ∨ ∃ a, a ∈ l ∧ c = g a := by
  induction l generalizing i with
  | nil => simp [modAt] at h
  | cons a as ih =>
    cases i with
    | zero =>
      rcases List.mem_cons.mp h with h1 | h1
      · exact Or.inr ⟨a, List.mem_cons_self a as, h1⟩
      · exact Or.inl (List.mem_cons_of_mem a h1)
    | succ n =>
      rcases List.mem_cons.mp h with h1 | h1
      · exact Or.inl (h1 ▸ List.mem_cons_self a as)
      · rcases ih h1 with h2 | ⟨b, hb, rfl⟩
        · exact Or.inl (List.mem_cons_of_mem a h2)
        · exact Or.inr ⟨b, List.mem_cons_of_mem a hb, rfl⟩

theorem getD_of_get? {α : Type} {l : List α} {i : Nat} {a : α} (d : α)
    (h : l.get? i = some a) : l.getD i d = a := by
  rw [List.get?_eq_getElem?] at h
  simp [List.getD, h]

theorem find_name_lt {cs : List column_t} {n : String} {i : Nat}
    (h : find_name cs n = some i) : i < cs.length := by
  induction cs generalizing i with
  | nil => simp [find_name] at h
  | cons c cs ih =>
    by_cases hc : c.name = n
    · simp [find_name, hc] at h
      simp only [List.length_cons]
      omega
    · simp [find_name, hc] at h
      obtain ⟨j, hj, rfl⟩ := h
      simpa using Nat.succ_lt_succ (ih hj)

theorem find_name_get? {cs : List column_t} {n : String} {i : Nat}
    (h : find_name cs n = some i) : ∃ c, cs.get? i = some c ∧ c.name = n := by
  induction cs generalizing i with
  | nil => simp [find_name] at h
  | cons c cs ih =>
    by_cases hc : c.name = n
    · simp [find_name, hc] at h
      exact h ▸ ⟨c, rfl, hc⟩
    · simp [find_name, hc] at h
      obtain ⟨j, hj, rfl⟩ := h
      obtain ⟨c2, hg, hn⟩ := ih hj
      exact ⟨c2, hg, hn⟩

theorem find_name_modAt (cs : List column_t) (i : Nat) (g : column_t → column_t)
    (hg : ∀ a, (g a).name = a.name) (n : String) :
    find_name (modAt cs i g) n = find_name cs n := by
  induction cs generalizing i with
  | nil => rfl
  | cons c cs ih =>
    cases i with
    | zero => simp [modAt, find_name, hg c]
    | succ m => simp [modAt, find_name, ih m]

/-! ### Lemmas about index-entry membership -/

theorem entries_of_eq_of_get? {idx : List radix_tree} {k : Nat} {e : radix_tree}
    (h : idx.get? k = some e) : entries_of idx k = e.entries := by
  unfold entries_of
  rw [h]
  rfl

theorem entries_of_eq_nil {idx : List radix_tree} {k : Nat}
    (h : idx.get? k = none) : entries_of idx k = [] := by
  unfold entries_of
  rw [h]
  rfl

theorem mem_entries_of_get? {idx : List radix_tree} {k : Nat} {p : List Nat × Nat}
    (h : p ∈ entries_of idx k) : ∃ e, idx.get? k = some e ∧ p ∈ e.entries := by
  cases he : idx.get? k with
  | none => rw [entries_of_eq_nil he] at h; simp at h
  | some e => exact ⟨e, rfl, by rwa [entries_of_eq_of_get? he] at h⟩

theorem lt_length_of_get?_some {α : Type} {l : List α} {k : Nat} {a : α}
    (h : l.get? k = some a) : k < l.length := by
  by_contra hk
  rw [List.get?_eq_none.mpr (by omega)] at h
  exact Option.noConfusion h

theorem get?_append_left {α : Type} {l l2 : List α} {k : Nat} (h : k < l.length) :
    (l ++ l2).get? k = l.get? k := by
  rw [List.get?_eq_getElem?, List.get?_eq_getElem?, List.getElem?_append_left h]

theorem entries_of_lt_length {idx : List radix_tree} {k : Nat} {p : List Nat × Nat}
    (h : p ∈ entries_of idx k) : k < idx.length := by
  obtain ⟨e, he, _⟩ := mem_entries_of_get? h
  exact lt_length_of_get?_some he

theorem entries_of_append_left {idx idx2 : List radix_tree} {k : Nat} {p : List Nat × Nat}
    (h : p ∈ entries_of idx k) : p ∈ entries_of (idx ++ idx2) k := by
  obtain ⟨e, he, hm⟩ := mem_entries_of_get? h
  rwa [entries_of_eq_of_get? (by rw [get?_append_left (lt_length_of_get?_some he)]; exact he)]

theorem entries_of_modAt_insert_self {idx : List radix_tree} {k : Nat}
    {key : List Nat} {off : Nat} (hk : k < idx.length) :
    entries_of (modAt idx k (fun e => e.insert key off)) k =
      entries_of idx k ++ [(key, off)] := by
  cases he : idx.get? k with
  | none => exact absurd (List.get?_eq_none.mp he) (by omega)
  | some e =>
    have h2 : (modAt idx k (fun e => e.insert key off)).get? k =
        some (e.insert key off) := by
      rw [get?_modAt_self, he]
      rfl
    rw [entries_of_eq_of_get? h2, entries_of_eq_of_get? he]
    rfl

theorem entries_of_modAt_ne {idx : List radix_tree} {j k : Nat}
    {g : radix_tree → radix_tree} (h : k ≠ j) :
    entries_of (modAt idx j g) k = entries_of idx k := by
  unfold entries_of
  rw [get?_modAt_ne _ _ _ _ h]

theorem entries_of_modAt_insert_sub {idx : List radix_tree} {j k : Nat}
    {key : List Nat} {off : Nat} {p : List Nat × Nat}
    (h : p ∈ entries_of (modAt idx j (fun e => e.insert key off)) k) :
    p ∈ entries_of idx k ∨ p = (key, off) := by
  by_cases hkj : k = j
  · subst hkj
    by_cases hk : k < idx.length
    · rw [entries_of_modAt_insert_self hk] at h
      rcases List.mem_append.mp h with h1 | h1
      · exact Or.inl h1
      · exact Or.inr (by simpa using h1)
    · have := entries_of_lt_length h
      rw [modAt_length] at this
      exact absurd this hk
  · rw [entries_of_modAt_ne hkj] at h
    exact Or.inl h

theorem entries_of_modAt_insert_mono {idx : List radix_tree} {j k : Nat}
    {key : List Nat} {off : Nat} {p : List Nat × Nat}
    (h : p ∈ entries_of idx k) :
    p ∈ entries_of (modAt idx j (fun e => e.insert key off)) k := by
  by_cases hkj : k = j
  · subst hkj
    rw [entries_of_modAt_insert_self (entries_of_lt_length h)]
    exact List.mem_append.mpr (Or.inl h)
  · rwa [entries_of_modAt_ne hkj]

theorem insert_record_length (flds : List field_t) (idx : List radix_tree) (off : Nat) :
    (insert_record idx flds off).length = idx.length := by
  induction flds generalizing idx with
  | nil => rfl
  | cons f fs ih =>
    by_cases hf : f.is_indexed = true
    · simp only [insert_record, hf, if_pos]
      rw [ih, modAt_length]
    · simp only [insert_record, hf, ite_false]
      exact ih idx

theorem mem_entries_insert_record {flds : List field_t} {idx : List radix_tree}
    {off k : Nat} {p : List Nat × Nat}
    (h : p ∈ entries_of (insert_record idx flds off) k) :
    p ∈ entries_of idx k ∨ p.2 = off := by
  induction flds generalizing idx with
  | nil => exact Or.inl h
  | cons f fs ih =>
    by_cases hf : f.is_indexed = true
    · simp only [insert_record, hf, if_pos] at h
      rcases ih h with h1 | h1
      · rcases entries_of_modAt_insert_sub h1 with h2 | h2
        · exact Or.inl h2
        · exact Or.inr (by simp [h2])
      · exact Or.inr h1
    · simp only [insert_record, hf, ite_false] at h
      exact ih h

theorem entries_insert_record_mono {flds : List field_t} {idx : List radix_tree}
    {off k : Nat} {p : List Nat × Nat} (h : p ∈ entries_of idx k) :
    p ∈ entries_of (insert_record idx flds off) k := by
  induction flds generalizing idx with
  | nil => exact h
  | cons f fs ih =>
    by_cases hf : f.is_indexed = true
    · simp only [insert_record, hf, if_pos]
      exact ih (entries_of_modAt_insert_mono h)
    · simp only [insert_record, hf, ite_false]
      exact ih h

theorem insert_record_mem {flds : List field_t} {idx : List radix_tree} {off : Nat}
    {fl : field_t} (hm : fl ∈ flds) (hi : fl.is_indexed = true)
    (hlt : fl.index_id < idx.length) :
    (fl.get_key, off) ∈ entries_of (insert_record idx flds off) fl.index_id := by
  induction flds generalizing idx with
  | nil => simp at hm
  | cons f fs ih =>
    rcases List.mem_cons.mp hm with rfl | hm2
    · simp only [insert_record, hi, if_pos]
      apply entries_insert_record_mono
      rw [entries_of_modAt_insert_self hlt]
      simp
    · by_cases hf : f.is_indexed = true
      · simp only [insert_record, hf, if_pos]
        exact ih hm2 (by rwa [modAt_length])
      · simp only [insert_record, hf, ite_false]
        exact ih hm2 hlt

/-! ### The effect of each operation on the table state -/

theorem set_indexing_snd_name (c : column_t) : ((c.set_indexing).2).name = c.name := by
  unfold column_t.set_indexing
  cases c.idx_state <;> rfl

theorem disable_indexing_snd_name (c : column_t) :
    ((c.disable_indexing).2).name = c.name := by
  unfold column_t.disable_indexing
  cases c.idx_state <;> rfl

theorem append_fields (t : dialog_table) (d : List Nat) (ts : Nat) :
    (t.append d ts).1 =
      { data_log := { data := t.data_log.data ++ d,
                      flushed := max t.data_log.flushed (t.data_log.data.length + d.length) },
        rt := t.data_log.data.length + d.length,
        schema := t.schema,
        metadata := t.metadata,
        filters := t.filters.map (fun f => f.update (t.append_record d ts)),
        triggers := t.triggers,
        idx := insert_record t.idx (t.append_record d ts).fields t.data_log.data.length,
        fcalls := t.fcalls ++ (List.range t.filters.length).map
          (fun i => (i, t.data_log.data.length)) } := by
  simp [dialog_table.append, dialog_table.append_s4, dialog_table.append_s3,
    dialog_table.append_s2, dialog_table.append_s1, dialog_table.append_record,
    monolog_t.append, monolog_t.flush, schema_t.apply]

theorem append_snd (t : dialog_table) (d : List Nat) (ts : Nat) :
    (t.append d ts).2 = t.data_log.data.length := rfl

theorem add_index_frame (t : dialog_table) (f : String) (bs : Nat) :
    ((t.add_index f bs).1).data_log = t.data_log ∧
    ((t.add_index f bs).1).rt = t.rt ∧
    ((t.add_index f bs).1).filters = t.filters ∧
    ((t.add_index f bs).1).triggers = t.triggers ∧
    ((t.add_index f bs).1).fcalls = t.fcalls := by
  unfold dialog_table.add_index
  cases h : t.schema.name_map_at f with
  | none => simp
  | some i =>
    simp only
    split
    · cases hp : index_params (t.schema.colAt i).ty with
      | none => simp
      | some p => cases p; simp
    · simp

theorem add_index_idx_cases (t : dialog_table) (f : String) (bs : Nat) :
    ((t.add_index f bs).1).idx = t.idx ∨
    ∃ e : radix_tree, e.entries = [] ∧ ((t.add_index f bs).1).idx = t.idx ++ [e] := by
  unfold dialog_table.add_index
  cases h : t.schema.name_map_at f with
  | none => exact Or.inl rfl
  | some i =>
    simp only
    split
    · cases hp : index_params (t.schema.colAt i).ty with
      | none => exact Or.inl rfl
      | some p =>
        cases p with
        | mk kw bw => exact Or.inr ⟨⟨kw, bw, []⟩, rfl, rfl⟩
    · exact Or.inl rfl

theorem add_index_schema_cases (t : dialog_table) (f : String) (bs : Nat) :
    ((t.add_index f bs).1).schema.columns = t.schema.columns ∨
    ∃ i g, (∀ a : column_t, (g a).name = a.name) ∧
      ((t.add_index f bs).1).schema.columns = modAt t.schema.columns i g := by
  unfold dialog_table.add_index
  cases h : t.schema.name_map_at f with
  | none => exact Or.inl rfl
  | some i =>
    simp only
    split
    · cases hp : index_params (t.schema.colAt i).ty with
      | none =>
        refine Or.inr ⟨i, fun c => ((c.set_indexing).2).set_unindexed, ?_, ?_⟩
        · intro a
          exact set_indexing_snd_name a
        · simp [modAt_modAt]
      | some p =>
        cases p with
        | mk kw bw =>
          refine Or.inr ⟨i, fun c => ((c.set_indexing).2).set_indexed t.idx.length bs,
            ?_, ?_⟩
          · intro a
            exact set_indexing_snd_name a
          · simp [modAt_modAt]
    · exact Or.inl rfl

theorem remove_index_frame (t : dialog_table) (f : String) :
    ((t.remove_index f).1).data_log = t.data_log ∧
    ((t.remove_index f).1).rt = t.rt ∧
    ((t.remove_index f).1).filters = t.filters ∧
    ((t.remove_index f).1).triggers = t.triggers ∧
    ((t.remove_index f).1).idx = t.idx ∧
    ((t.remove_index f).1).metadata = t.metadata ∧
    ((t.remove_index f).1).fcalls = t.fcalls := by
  unfold dialog_table.remove_index
  cases h : t.schema.name_map_at f with
  | none => simp
  | some i =>
    simp only
    split <;> simp

theorem remove_index_schema_cases (t : dialog_table) (f : String) :
    ((t.remove_index f).1).schema.columns = t.schema.columns ∨
    ∃ i, ((t.remove_index f).1).schema.columns =
      modAt t.schema.columns i (fun c => (c.disable_indexing).2) := by
  unfold dialog_table.remove_index
  cases h : t.schema.name_map_at f with
  | none => exact Or.inl rfl
  | some i =>
    simp only
    split
    · exact Or.inr ⟨i, rfl⟩
    · exact Or.inl rfl

theorem add_filter_frame (t : dialog_table) (e : String) (w : Nat) :
    ((t.add_filter e w).1).data_log = t.data_log ∧
    ((t.add_filter e w).1).rt = t.rt ∧
    ((t.add_filter e w).1).schema = t.schema ∧
    ((t.add_filter e w).1).triggers = t.triggers ∧
    ((t.add_filter e w).1).idx = t.idx ∧
    ((t.add_filter e w).1).fcalls = t.fcalls := by
  unfold dialog_table.add_filter
  cases h : expression_compiler.compile e t.schema with
  | error err => simp
  | ok c => simp

theorem add_filter_filters_cases (t : dialog_table) (e : String) (w : Nat) :
    ((t.add_filter e w).1).filters = t.filters ∨
    ∃ c, ((t.add_filter e w).1).filters =
      t.filters ++ [{ cexpr := c, monitor_ms := w, updates := [] }] := by
  unfold dialog_table.add_filter
  cases h : expression_compiler.compile e t.schema with
  | error err => exact Or.inl rfl
  | ok c => exact Or.inr ⟨c, rfl⟩

theorem add_trigger_frame (t : dialog_table) (fid : Nat) (fn : String)
    (agg : aggregate_id) (op : relop_id) (th : numeric_t) :
    ((t.add_trigger fid fn agg op th).1).data_log = t.data_log ∧
    ((t.add_trigger fid fn agg op th).1).rt = t.rt ∧
    ((t.add_trigger fid fn agg op th).1).schema = t.schema ∧
    ((t.add_trigger fid fn agg op th).1).filters = t.filters ∧
    ((t.add_trigger fid fn agg op th).1).idx = t.idx ∧
    ((t.add_trigger fid fn agg op th).1).fcalls = t.fcalls := by
  unfold dialog_table.add_trigger
  simp

/-! ### Case analysis of the management operations -/

theorem modAt_congr {α : Type} (l : List α) (i : Nat) (f g : α → α)
    (h : ∀ a, l.get? i = some a → f a = g a) : modAt l i f = modAt l i g := by
  induction l generalizing i with
  | nil => rfl
  | cons a as ih =>
    cases i with
    | zero => simp [modAt, h a rfl]
    | succ n => simp [modAt]; exact ih n (fun b hb => h b hb)

theorem set_indexing_fst (c : column_t) :
    (c.set_indexing).1 = true ↔ c.idx_state = .UNINDEXED := by
  unfold column_t.set_indexing
  cases c.idx_state <;> simp

theorem disable_indexing_fst (c : column_t) :
    (c.disable_indexing).1 = true ↔ c.idx_state ≠ .UNINDEXED := by
  unfold column_t.disable_indexing
  cases c.idx_state <;> simp

theorem colAt_eq_of_get? {s : schema_t} {i : Nat} {c : column_t}
    (h : s.columns.get? i = some c) : s.colAt i = c :=
  getD_of_get? dummy_column h

theorem name_map_at_col {t : dialog_table} {f : String} {i : Nat}
    (h : t.schema.name_map_at f = some i) :
    ∃ c, t.schema.columns.get? i = some c ∧ c.name = to_upper f ∧ t.schema.colAt i = c := by
  obtain ⟨c, hg, hn⟩ := find_name_get? h
  exact ⟨c, hg, hn, colAt_eq_of_get? hg⟩

theorem add_index_none {t : dialog_table} {f : String} (bs : Nat)
    (h : t.schema.name_map_at f = none) :
    t.add_index f bs =
      (t, .error (.management_exception ("Could not add index for " ++ f))) := by
  unfold dialog_table.add_index
  rw [show t.schema.name_map_at f = none from h]

theorem add_index_already {t : dialog_table} {f : String} {i : Nat} (bs : Nat)
    (h : t.schema.name_map_at f = some i)
    (hs : (t.schema.colAt i).idx_state ≠ .UNINDEXED) :
    t.add_index f bs =
      (t, .error (.management_exception
        ("Could not index " ++ f ++ ": already indexed/indexing"))) := by
  unfold dialog_table.add_index
  rw [show t.schema.name_map_at f = some i from h]
  simp only
  rw [if_neg]
  intro hc
  exact hs ((set_indexing_fst _).mp hc)

theorem add_index_unsupported {t : dialog_table} {f : String} {i : Nat} (bs : Nat)
    (h : t.schema.name_map_at f = some i)
    (hs : (t.schema.colAt i).idx_state = .UNINDEXED)
    (hp : index_params (t.schema.colAt i).ty = none) :
    t.add_index f bs =
      (t, .error (.management_exception "Index not supported for field type")) := by
  unfold dialog_table.add_index
  rw [show t.schema.name_map_at f = some i from h]
  simp only
  rw [if_pos ((set_indexing_fst _).mpr hs), hp]
  have hcols : modAt (modAt t.schema.columns i (fun c => (c.set_indexing).2)) i
      column_t.set_unindexed = t.schema.columns := by
    rw [modAt_modAt]
    apply modAt_eq_self
    intro a ha
    have hai : a.idx_state = .UNINDEXED := by
      rw [← colAt_eq_of_get? ha]
      exact hs
    cases a with
    | mk nm ty off st =>
      simp only at hai
      subst hai
      rfl
  rw [hcols]

theorem add_index_success {t : dialog_table} {f : String} {i kw bw : Nat} (bs : Nat)
    (h : t.schema.name_map_at f = some i)
    (hs : (t.schema.colAt i).idx_state = .UNINDEXED)
    (hp : index_params (t.schema.colAt i).ty = some (kw, bw)) :
    t.add_index f bs =
      ({ t with
          schema := ⟨modAt t.schema.columns i
            (fun c => c.set_indexed t.idx.length bs)⟩,
          idx := t.idx ++ [{ key_width := kw, bucket_width := bw, entries := [] }],
          metadata := t.metadata ++ [.index_info t.idx.length f bs] }, .ok ()) := by
  unfold dialog_table.add_index
  rw [show t.schema.name_map_at f = some i from h]
  simp only
  rw [if_pos ((set_indexing_fst _).mpr hs), hp]
  have hcols : modAt (modAt t.schema.columns i (fun c => (c.set_indexing).2)) i
      (fun c => c.set_indexed t.idx.length bs) =
      modAt t.schema.columns i (fun c => c.set_indexed t.idx.length bs) := by
    rw [modAt_modAt]
    apply modAt_congr
    intro a ha
    have hai : a.idx_state = .UNINDEXED := by
      rw [← colAt_eq_of_get? ha]
      exact hs
    cases a with
    | mk nm ty off st =>
      simp only at hai
      subst hai
      rfl
  rw [hcols]

theorem remove_index_none {t : dialog_table} {f : String}
    (h : t.schema.name_map_at f = none) :
    t.remove_index f =
      (t, .error (.management_exception ("Could not remove index for " ++ f))) := by
  unfold dialog_table.remove_index
  rw [show t.schema.name_map_at f = none from h]

theorem remove_index_no_index {t : dialog_table} {f : String} {i : Nat}
    (h : t.schema.name_map_at f = some i)
    (hs : (t.schema.colAt i).idx_state = .UNINDEXED) :
    t.remove_index f =
      (t, .error (.management_exception
        ("Could not remove index for " ++ f ++ ": No index exists"))) := by
  unfold dialog_table.remove_index
  rw [show t.schema.name_map_at f = some i from h]
  simp only
  rw [if_neg]
  intro hc
  exact (disable_indexing_fst _).mp hc hs

theorem remove_index_success {t : dialog_table} {f : String} {i : Nat}
    (h : t.schema.name_map_at f = some i)
    (hs : (t.schema.colAt i).idx_state ≠ .UNINDEXED) :
    t.remove_index f =
      ({ t with schema := ⟨modAt t.schema.columns i column_t.set_unindexed⟩ }, .ok ()) := by
  unfold dialog_table.remove_index
  rw [show t.schema.name_map_at f = some i from h]
  simp only
  rw [if_pos ((disable_indexing_fst _).mpr hs)]
  have hcols : modAt t.schema.columns i (fun c => (c.disable_indexing).2) =
      modAt t.schema.columns i column_t.set_unindexed := by
    apply modAt_congr
    intro a ha
    have hai : a.idx_state ≠ .UNINDEXED := by
      rw [← colAt_eq_of_get? ha]
      exact hs
    unfold column_t.disable_indexing column_t.set_unindexed
    cases hsa : a.idx_state with
    | UNINDEXED => exact absurd hsa hai
    | INDEXING => rfl
    | INDEXED id b => rfl
  rw [hcols]

theorem colAt_modAt_self {cols : List column_t} {i : Nat} {c : column_t}
    (g : column_t → column_t) (h : cols.get? i = some c) :
    (schema_t.mk (modAt cols i g)).colAt i = g c := by
  apply colAt_eq_of_get?
  show (modAt cols i g).get? i = some (g c)
  rw [get?_modAt_self, h]
  rfl

theorem colAt_modAt_ne {cols : List column_t} {i j : Nat}
    (g : column_t → column_t) (h : j ≠ i) :
    (schema_t.mk (modAt cols i g)).colAt j = (schema_t.mk cols).colAt j := by
  unfold schema_t.colAt
  simp only
  cases hg : cols.get? j with
  | none =>
    have h2 : (modAt cols i g).get? j = none := by
      rw [get?_modAt_ne _ _ _ _ h]
      exact hg
    rw [List.get?_eq_getElem?] at hg h2
    simp [List.getD, hg, h2]
  | some c =>
    have h2 : (modAt cols i g).get? j = some c := by
      rw [get?_modAt_ne _ _ _ _ h]
      exact hg
    rw [getD_of_get? _ h2, getD_of_get? _ hg]

/-! ### Monotonicity of filter histories and index entries under any operation -/

theorem get?_map {α β : Type} (f : α → β) (l : List α) (n : Nat) :
    (l.map f).get? n = (l.get? n).map f := by
  rw [List.get?_eq_getElem?, List.get?_eq_getElem?, List.getElem?_map]

theorem updates_at_eq_of_get? {t : dialog_table} {i : Nat} {f : filter}
    (h : t.filters.get? i = some f) : updates_at t i = f.updates := by
  unfold updates_at
  rw [h]
  rfl

theorem updates_at_eq_nil {t : dialog_table} {i : Nat}
    (h : t.filters.get? i = none) : updates_at t i = [] := by
  unfold updates_at
  rw [h]
  rfl

theorem mem_updates_at_get? {t : dialog_table} {i : Nat} {r : record_t}
    (h : r ∈ updates_at t i) : ∃ f, t.filters.get? i = some f ∧ r ∈ f.updates := by
  cases hf : t.filters.get? i with
  | none => rw [updates_at_eq_nil hf] at h; simp at h
  | some f => exact ⟨f, rfl, by rwa [updates_at_eq_of_get? hf] at h⟩

theorem updates_at_congr {t t2 : dialog_table} (i : Nat) (h : t2.filters = t.filters) :
    updates_at t2 i = updates_at t i := by
  unfold updates_at
  rw [h]

theorem entries_at_congr {t t2 : dialog_table} (k : Nat) (h : t2.idx = t.idx) :
    entries_at t2 k = entries_at t k := by
  unfold entries_at
  rw [h]

theorem append_filters (t : dialog_table) (d : List Nat) (ts : Nat) :
    ((t.append d ts).1).filters =
      t.filters.map (fun f => f.update (t.append_record d ts)) := by
  rw [append_fields]

theorem append_idx (t : dialog_table) (d : List Nat) (ts : Nat) :
    ((t.append d ts).1).idx =
      insert_record t.idx (t.append_record d ts).fields t.data_log.data.length := by
  rw [append_fields]

theorem updates_at_run_mono {t : dialog_table} {op : table_op} {i : Nat} {r : record_t}
    (h : r ∈ updates_at t i) : r ∈ updates_at (run t op) i := by
  obtain ⟨f, hf, hm⟩ := mem_updates_at_get? h
  cases op with
  | op_append d ts =>
    have hg : (run t (.op_append d ts)).filters.get? i =
        some (f.update (t.append_record d ts)) := by
      show ((t.append d ts).1).filters.get? i = _
      rw [append_filters, get?_map, hf]
      rfl
    rw [updates_at_eq_of_get? hg]
    exact List.mem_append_left _ hm
  | op_add_index fn bs =>
    show r ∈ updates_at (t.add_index fn bs).1 i
    rw [updates_at_congr i (add_index_frame t fn bs).2.2.1]
    exact h
  | op_remove_index fn =>
    show r ∈ updates_at (t.remove_index fn).1 i
    rw [updates_at_congr i (remove_index_frame t fn).2.2.1]
    exact h
  | op_add_filter e w =>
    show r ∈ updates_at (t.add_filter e w).1 i
    rcases add_filter_filters_cases t e w with hc | ⟨c, hc⟩
    · rw [updates_at_congr i hc]
      exact h
    · have hg : ((t.add_filter e w).1).filters.get? i = some f := by
        rw [hc, get?_append_left (lt_length_of_get?_some hf)]
        exact hf
      rw [updates_at_eq_of_get? hg]
      exact hm
  | op_add_trigger fid fn agg o th =>
    show r ∈ updates_at (t.add_trigger fid fn agg o th).1 i
    rw [updates_at_congr i (add_trigger_frame t fid fn agg o th).2.2.2.1]
    exact h

theorem entries_at_run_mono {t : dialog_table} {op : table_op} {k : Nat}
    {p : List Nat × Nat} (h : p ∈ entries_at t k) : p ∈ entries_at (run t op) k := by
  cases op with
  | op_append d ts =>
    show p ∈ entries_at (t.append d ts).1 k
    unfold entries_at
    rw [append_idx]
    exact entries_insert_record_mono h
  | op_add_index fn bs =>
    show p ∈ entries_at (t.add_index fn bs).1 k
    unfold entries_at
    rcases add_index_idx_cases t fn bs with hc | ⟨e, _, hc⟩
    · rw [hc]
      exact h
    · rw [hc]
      exact entries_of_append_left h
  | op_remove_index fn =>
    show p ∈ entries_at (t.remove_index fn).1 k
    rw [entries_at_congr k (remove_index_frame t fn).2.2.2.2.1]
    exact h
  | op_add_filter e w =>
    show p ∈ entries_at (t.add_filter e w).1 k
    rw [entries_at_congr k (add_filter_frame t e w).2.2.2.2.1]
    exact h
  | op_add_trigger fid fn agg o th =>
    show p ∈ entries_at (t.add_trigger fid fn agg o th).1 k
    rw [entries_at_congr k (add_trigger_frame t fid fn agg o th).2.2.2.2.1]
    exact h

theorem run_data_ext (t : dialog_table) (op : table_op) :
    ∃ ext : List Nat, (run t op).data_log.data = t.data_log.data ++ ext := by
  cases op with
  | op_append d ts =>
    exact ⟨d, by rw [show run t (.op_append d ts) = (t.append d ts).1 from rfl, append_fields]⟩
  | op_add_index fn bs =>
    exact ⟨[], by
      show (t.add_index fn bs).1.data_log.data = _
      rw [(add_index_frame t fn bs).1, List.append_nil]⟩
  | op_remove_index fn =>
    exact ⟨[], by
      show (t.remove_index fn).1.data_log.data = _
      rw [(remove_index_frame t fn).1, List.append_nil]⟩
  | op_add_filter e w =>
    exact ⟨[], by
      show (t.add_filter e w).1.data_log.data = _
      rw [(add_filter_frame t e w).1, List.append_nil]⟩
  | op_add_trigger fid fn agg o th =>
    exact ⟨[], by
      show (t.add_trigger fid fn agg o th).1.data_log.data = _
      rw [(add_trigger_frame t fid fn agg o th).1, List.append_nil]⟩

theorem run_loglen_le (t : dialog_table) (op : table_op) :
    t.data_log.data.length ≤ (run t op).data_log.data.length := by
  obtain ⟨ext, he⟩ := run_data_ext t op
  rw [he]
  simp

theorem run_filters_length_of_not_add_filter {t : dialog_table} {op : table_op}
    (h : is_add_filter op = false) :
    (run t op).filters.length = t.filters.length := by
  cases op with
  | op_append d ts =>
    show ((t.append d ts).1).filters.length = _
    rw [append_filters, List.length_map]
  | op_add_index fn bs => rw [show run t (.op_add_index fn bs) = (t.add_index fn bs).1 from rfl,
      (add_index_frame t fn bs).2.2.1]
  | op_remove_index fn => rw [show run t (.op_remove_index fn) = (t.remove_index fn).1 from rfl,
      (remove_index_frame t fn).2.2.1]
  | op_add_filter e w => simp [is_add_filter] at h
  | op_add_trigger fid fn agg o th =>
    rw [show run t (.op_add_trigger fid fn agg o th) = (t.add_trigger fid fn agg o th).1 from rfl,
      (add_trigger_frame t fid fn agg o th).2.2.2.1]

theorem find_name_run (t : dialog_table) (op : table_op) (n : String) :
    find_name ((run t op).schema.columns) n = find_name t.schema.columns n := by
  cases op with
  | op_append d ts =>
    show find_name ((t.append d ts).1).schema.columns n = _
    rw [append_fields]
  | op_add_index fn bs =>
    rcases add_index_schema_cases t fn bs with hc | ⟨i, g, hg, hc⟩
    · show find_name ((t.add_index fn bs).1).schema.columns n = _
      rw [hc]
    · show find_name ((t.add_index fn bs).1).schema.columns n = _
      rw [hc, find_name_modAt _ _ _ hg]
  | op_remove_index fn =>
    rcases remove_index_schema_cases t fn with hc | ⟨i, hc⟩
    · show find_name ((t.remove_index fn).1).schema.columns n = _
      rw [hc]
    · show find_name ((t.remove_index fn).1).schema.columns n = _
      rw [hc, find_name_modAt _ _ _ (fun a => disable_indexing_snd_name a)]
  | op_add_filter e w =>
    show find_name ((t.add_filter e w).1).schema.columns n = _
    rw [(add_filter_frame t e w).2.2.1]
  | op_add_trigger fid fn agg o th =>
    show find_name ((t.add_trigger fid fn agg o th).1).schema.columns n = _
    rw [(add_trigger_frame t fid fn agg o th).2.2.1]

/-! ### Claims -/

/-- C10: the management operations `add_index`, `remove_index`, `add_filter`
and `add_trigger` never modify the data log contents or the read tail,
whether they succeed or fail: `num_records()` is unchanged, and every
`read`/`get`/`ptr`/`ptr_cur` call returns exactly what it returned before
the management call; only the column indexing state, the registries and
the metadata catalog may change. -/
theorem claim_C10_management_frame (t t2 : dialog_table) (f f2 e : String)
    (bs w fid : Nat) (fn : String) (agg : aggregate_id) (op : relop_id)
    (th : numeric_t)
    (h : t2 = (t.add_index f bs).1 ∨ t2 = (t.remove_index f2).1 ∨
         t2 = (t.add_filter e w).1 ∨ t2 = (t.add_trigger fid fn agg op th).1) :
    t2.data_log = t.data_log ∧ t2.rt = t.rt ∧
    t2.num_records = t.num_records ∧
    (∀ o len tl, t2.read o len tl = t.read o len tl) ∧
    (∀ o len, t2.get o len = t.get o len) ∧
    (∀ o tl, t2.ptr o tl = t.ptr o tl) ∧
    (∀ o, t2.ptr_cur o = t.ptr_cur o) := by
  have key : t2.data_log = t.data_log ∧ t2.rt = t.rt := by
    rcases h with rfl | rfl | rfl | rfl
    · exact ⟨(add_index_frame t f bs).1, (add_index_frame t f bs).2.1⟩
    · exact ⟨(remove_index_frame t f2).1, (remove_index_frame t f2).2.1⟩
    · exact ⟨(add_filter_frame t e w).1, (add_filter_frame t e w).2.1⟩
    · exact ⟨(add_trigger_frame t fid fn agg op th).1,
        (add_trigger_frame t fid fn agg op th).2.1⟩
  obtain ⟨h1, h2⟩ := key
  refine ⟨h1, h2, ?_, ?_, ?_, ?_, ?_⟩ <;>
    simp [dialog_table.num_records, dialog_table.read, dialog_table.get,
      dialog_table.ptr, dialog_table.ptr_cur, monolog_t.read, monolog_t.cptr, h1, h2]

/-- Witness for C10: a concrete `add_index` call leaves `num_records`
unchanged. -/
theorem claim_C10_management_frame_witness :
    ((init_table [("A", type_id.D_CHAR)]).add_index "A" 2).1.num_records =
      (init_table [("A", type_id.D_CHAR)]).num_records :=
  (claim_C10_management_frame (init_table [("A", type_id.D_CHAR)])
    ((init_table [("A", type_id.D_CHAR)]).add_index "A" 2).1 "A" "A" "x" 2 0 0 "A"
    .D_SUM .D_LT 0 (Or.inl rfl)).2.2.1

/-- C2 (amended): `read(o, buf, len, tail)` succeeds and `ptr(o, tail)` is
non-null exactly when `o < tail`; `get` and single-argument `ptr` are the
same calls against a freshly fetched tail, so `get(o)` succeeds iff
`o < num_records()` at call time; a miss yields `false`/null, never an
error; and — provided `offset + length ≤ tail` — a successful call
returns only bytes at log positions below the tail used for the check.
(The unamended claim asserted the no-partial-bytes guarantee for every
successful call; the code gates only on the starting offset, so a
successful read whose length spans past the tail does return bytes at
positions `≥ tail`, see the counterexample.) -/
theorem claim_C2_visibility_gate (t : dialog_table) (o len tl : Nat) :
    ((t.read o len tl).1 = true ↔ o < tl) ∧
    (t.ptr o tl ≠ none ↔ o < tl) ∧
    t.get o len = t.read o len t.rt ∧
    t.ptr_cur o = t.ptr o t.rt ∧
    ((t.get o len).1 = true ↔ o < t.num_records) ∧
    (o + len ≤ tl →
      (t.read o len tl).2 = (t.data_log.data.drop o).take len ∧
      (∀ j, j < (t.read o len tl).2.length → o + j < tl)) := by
  refine ⟨?_, ?_, rfl, rfl, ?_, ?_⟩
  · unfold dialog_table.read
    by_cases h : o < tl <;> simp [h]
  · unfold dialog_table.ptr
    by_cases h : o < tl <;> simp [h]
  · unfold dialog_table.get dialog_table.read dialog_table.num_records
    by_cases h : o < t.rt <;> simp [h]
  · intro hol
    unfold dialog_table.read monolog_t.read
    by_cases h : o < tl
    · refine ⟨by simp [h], ?_⟩
      intro j hj
      simp only [h, if_pos] at hj
      rw [List.length_take] at hj
      omega
    · have hlen : len = 0 := by omega
      subst hlen
      simp [h]

/-- Witness for C2 at a concrete in-bounds read. -/
theorem claim_C2_visibility_gate_witness :
    (((init_table [("A", type_id.D_CHAR)]).append [7] 0).1.read 0 1 1).2 =
      ((((init_table [("A", type_id.D_CHAR)]).append [7] 0).1.data_log.data.drop 0).take 1) ∧
    (∀ j, j < (((init_table [("A", type_id.D_CHAR)]).append [7] 0).1.read 0 1 1).2.length →
      0 + j < 1) :=
  (claim_C2_visibility_gate ((init_table [("A", type_id.D_CHAR)]).append [7] 0).1
    0 1 1).2.2.2.2.2 (by decide)

/-- C2 counterexample: after appending two one-byte records, a reader
holding the stale tail snapshot 1 calls `read(0, buf, 2, 1)`; the call
succeeds and the returned buffer contains the log byte at position 1,
which is not below the tail used for the check — refuting "no byte at a
position ≥ the tail used for the check is returned" for successful
calls. -/
theorem claim_C2_counterexample :
    (((((init_table [("A", type_id.D_CHAR)]).append [7] 0).1.append [9] 0).1.read 0 2 1).1
      = true) ∧
    (((((init_table [("A", type_id.D_CHAR)]).append [7] 0).1.append [9] 0).1.read 0 2 1).2
      = [7, 9]) ∧
    (((((init_table [("A", type_id.D_CHAR)]).append [7] 0).1.append [9] 0).1.data_log.data.get? 1)
      = some 9) ∧
    ¬ (0 + 1 < 1) := by
  exact ⟨rfl, rfl, rfl, by omega⟩

/-- C6: `add_index(field_name, bucket_size)` fails with a management error
exactly when (i) the name does not resolve (case-insensitively) to a
schema column, (ii) the column's indexing state is already INDEXING or
INDEXED, or (iii) the column's type has no index-construction rule; in
every failure case the table is left exactly as it was before the call —
in case (iii) the column, taken to INDEXING by the won CAS, is rolled
back to UNINDEXED (its original state), so a retry is possible, and in
cases (i) and (ii) no state is modified. -/
theorem claim_C6_add_index_failure (t : dialog_table) (f : String) (bs : Nat) :
    ((∃ msg, (t.add_index f bs).2 = .error (.management_exception msg)) ↔
      (t.schema.name_map_at f = none ∨
       ∃ i, t.schema.name_map_at f = some i ∧
         ((t.schema.colAt i).idx_state ≠ .UNINDEXED ∨
          index_params (t.schema.colAt i).ty = none))) ∧
    (∀ msg, (t.add_index f bs).2 = .error (.management_exception msg) →
      (t.add_index f bs).1 = t) := by
  cases hn : t.schema.name_map_at f with
  | none =>
    rw [add_index_none bs hn]
    exact ⟨⟨fun _ => Or.inl rfl, fun _ => ⟨_, rfl⟩⟩, fun _ _ => rfl⟩
  | some i =>
    by_cases hs : (t.schema.colAt i).idx_state = .UNINDEXED
    · cases hp : index_params (t.schema.colAt i).ty with
      | none =>
        rw [add_index_unsupported bs hn hs hp]
        exact ⟨⟨fun _ => Or.inr ⟨i, rfl, Or.inr hp⟩, fun _ => ⟨_, rfl⟩⟩, fun _ _ => rfl⟩
      | some p =>
        cases p with
        | mk kw bw =>
          rw [add_index_success bs hn hs hp]
          constructor
          · constructor
            · rintro ⟨msg, hmsg⟩
              exact absurd hmsg (by simp)
            · rintro (hc | ⟨i2, hi2, hc⟩)
              · exact absurd hc (by simp)
              · cases hi2
                rcases hc with hc | hc
                · exact absurd hs hc
                · rw [hp] at hc
                  exact absurd hc (by simp)
          · intro msg hmsg
            exact absurd hmsg (by simp)
    · rw [add_index_already bs hn hs]
      exact ⟨⟨fun _ => Or.inr ⟨i, rfl, Or.inl hs⟩, fun _ => ⟨_, rfl⟩⟩, fun _ _ => rfl⟩

/-- Witness for C6: `add_index` on an unknown field name fails and leaves
the table unchanged. -/
theorem claim_C6_add_index_failure_witness :
    ((init_table [("A", type_id.D_CHAR)]).add_index "B" 1).1 =
      init_table [("A", type_id.D_CHAR)] := by
  obtain ⟨msg, hmsg⟩ :=
    (claim_C6_add_index_failure (init_table [("A", type_id.D_CHAR)]) "B" 1).1.mpr
      (Or.inl (by decide))
  exact (claim_C6_add_index_failure (init_table [("A", type_id.D_CHAR)]) "B" 1).2 msg hmsg

/-- C7: on the success path of `add_index` (name resolves, column
UNINDEXED, type supported) a boolean column gets the minimal
`radix_tree(1, 2)` structure and every other supported type gets
`radix_tree(byte width, 256)`; the new entry is pushed at the end of the
index registry, so its `index_id` is the registry's prior length
(monotonically assigned); the column transitions to
INDEXED(index_id, bucket_size); and `(index_id, field_name, bucket_size)`
is written to the metadata catalog. -/
theorem claim_C7_add_index_success (t : dialog_table) (f : String) (bs i kw bw : Nat)
    (h : t.schema.name_map_at f = some i)
    (hs : (t.schema.colAt i).idx_state = .UNINDEXED)
    (hp : index_params (t.schema.colAt i).ty = some (kw, bw)) :
    ((t.schema.colAt i).ty = .D_BOOL → (kw, bw) = (1, 2)) ∧
    ((t.schema.colAt i).ty ≠ .D_BOOL →
      (kw, bw) = (type_size (t.schema.colAt i).ty, 256)) ∧
    (t.add_index f bs).2 = .ok () ∧
    ((t.add_index f bs).1).idx =
      t.idx ++ [{ key_width := kw, bucket_width := bw, entries := [] }] ∧
    ((t.add_index f bs).1).idx.length = t.idx.length + 1 ∧
    ((t.add_index f bs).1).schema.colAt i =
      (t.schema.colAt i).set_indexed t.idx.length bs ∧
    ((t.add_index f bs).1).metadata = t.metadata ++ [.index_info t.idx.length f bs] := by
  obtain ⟨c, hg, hcn, hcol⟩ := name_map_at_col h
  refine ⟨?_, ?_, ?_, ?_, ?_, ?_, ?_⟩
  · intro hb
    rw [hb] at hp
    simpa [index_params] using hp.symm
  · intro hnb
    cases hty : (t.schema.colAt i).ty <;> rw [hty] at hp <;>
      first
        | exact absurd hty (by rw [hty] at hnb; exact fun _ => hnb rfl)
        | simpa [index_params, type_size, hty] using hp.symm
  · rw [add_index_success bs h hs hp]
  · rw [add_index_success bs h hs hp]
  · rw [add_index_success bs h hs hp]
    simp
  · rw [add_index_success bs h hs hp]
    show (schema_t.mk (modAt t.schema.columns i _)).colAt i = _
    rw [colAt_modAt_self _ hg, hcol]
  · rw [add_index_success bs h hs hp]

theorem add_index_ok_inv {t : dialog_table} {f : String} {bs : Nat} {t1 : dialog_table}
    (h : t.add_index f bs = (t1, .ok ())) :
    ∃ i kw bw, t.schema.name_map_at f = some i ∧
      (t.schema.colAt i).idx_state = .UNINDEXED ∧
      index_params (t.schema.colAt i).ty = some (kw, bw) := by
  cases hn : t.schema.name_map_at f with
  | none =>
    rw [add_index_none bs hn] at h
    exact absurd (congrArg Prod.snd h) (by simp)
  | some i =>
    by_cases hs : (t.schema.colAt i).idx_state = .UNINDEXED
    · cases hp : index_params (t.schema.colAt i).ty with
      | none =>
        rw [add_index_unsupported bs hn hs hp] at h
        exact absurd (congrArg Prod.snd h) (by simp)
      | some p =>
        cases p with
        | mk kw bw => exact ⟨i, kw, bw, rfl, hs, hp⟩
    · rw [add_index_already bs hn hs] at h
      exact absurd (congrArg Prod.snd h) (by simp)

/-- Witness for C7: indexing the single int column of a fresh table. -/
theorem claim_C7_add_index_success_witness :
    ((init_table [("A", type_id.D_INT)]).add_index "A" 5).2 = .ok () ∧
    ((init_table [("A", type_id.D_INT)]).add_index "A" 5).1.idx =
      (init_table [("A", type_id.D_INT)]).idx ++
        [{ key_width := 4, bucket_width := 256, entries := [] }] :=
  ⟨(claim_C7_add_index_success (init_table [("A", type_id.D_INT)]) "A" 5 0 4 256
      (by decide) (by decide) (by decide)).2.2.1,
   (claim_C7_add_index_success (init_table [("A", type_id.D_INT)]) "A" 5 0 4 256
      (by decide) (by decide) (by decide)).2.2.2.1⟩

/-- C8: `remove_index(field_name)` fails with a management error exactly
when the name does not resolve or the resolved column has no index
(UNINDEXED); on success the column (INDEXED or INDEXING) transitions to
UNINDEXED while the index registry itself is untouched (removal only
stops future insertion). After a successful `add_index`, a second
`add_index` without an intervening `remove_index` fails with a management
error and changes nothing, whereas `remove_index` followed by `add_index`
succeeds and installs a fresh index entry under a new id. -/
theorem claim_C8_remove_index_readd (t : dialog_table) (f : String) (bs : Nat) :
    ((∃ msg, (t.remove_index f).2 = .error (.management_exception msg)) ↔
      (t.schema.name_map_at f = none ∨
       ∃ i, t.schema.name_map_at f = some i ∧
         (t.schema.colAt i).idx_state = .UNINDEXED)) ∧
    ((t.remove_index f).1.idx = t.idx) ∧
    (∀ i, t.schema.name_map_at f = some i →
      (t.schema.colAt i).idx_state ≠ .UNINDEXED →
      (t.remove_index f).2 = .ok () ∧
      ((t.remove_index f).1).schema.colAt i = (t.schema.colAt i).set_unindexed) ∧
    (∀ t1, t.add_index f bs = (t1, .ok ()) →
      (t1.add_index f bs).1 = t1 ∧
      (∃ msg, (t1.add_index f bs).2 = .error (.management_exception msg)) ∧
      (t1.remove_index f).2 = .ok () ∧
      ((t1.remove_index f).1.add_index f bs).2 = .ok () ∧
      t1.idx.length = t.idx.length + 1 ∧
      (∃ i, t.schema.name_map_at f = some i ∧
        (((t1.remove_index f).1.add_index f bs).1).schema.colAt i =
          ((t1.remove_index f).1.schema.colAt i).set_indexed t1.idx.length bs)) := by
  refine ⟨?_, (remove_index_frame t f).2.2.2.2.1, ?_, ?_⟩
  · cases hn : t.schema.name_map_at f with
    | none =>
      rw [remove_index_none hn]
      exact ⟨fun _ => Or.inl rfl, fun _ => ⟨_, rfl⟩⟩
    | some i =>
      by_cases hs : (t.schema.colAt i).idx_state = .UNINDEXED
      · rw [remove_index_no_index hn hs]
        exact ⟨fun _ => Or.inr ⟨i, rfl, hs⟩, fun _ => ⟨_, rfl⟩⟩
      · rw [remove_index_success hn hs]
        constructor
        · rintro ⟨msg, hmsg⟩
          exact absurd hmsg (by simp)
        · rintro (hc | ⟨i2, hi2, hc⟩)
          · exact absurd hc (by simp)
          · cases hi2
            exact absurd hc hs
  · intro i hi hs
    obtain ⟨c, hg, hcn, hcol⟩ := name_map_at_col hi
    rw [remove_index_success hi hs]
    refine ⟨rfl, ?_⟩
    show (schema_t.mk (modAt t.schema.columns i _)).colAt i = _
    rw [colAt_modAt_self _ hg, hcol]
  · intro t1 h
    obtain ⟨i, kw, bw, hn, hs, hp⟩ := add_index_ok_inv h
    obtain ⟨c, hg, hcn, hcol⟩ := name_map_at_col hn
    have ht1 : t1 = { t with
        schema := ⟨modAt t.schema.columns i (fun c => c.set_indexed t.idx.length bs)⟩,
        idx := t.idx ++ [{ key_width := kw, bucket_width := bw, entries := [] }],
        metadata := t.metadata ++ [.index_info t.idx.length f bs] } := by
      have hfst := congrArg Prod.fst h
      rw [add_index_success bs hn hs hp] at hfst
      exact hfst.symm
    have hmap1 : t1.schema.name_map_at f = some i := by
      rw [ht1]
      show find_name (modAt t.schema.columns i
        (fun c => c.set_indexed t.idx.length bs)) (to_upper f) = some i
      rw [find_name_modAt t.schema.columns i
        (fun c => c.set_indexed t.idx.length bs) (fun a => rfl)]
      exact hn
    have hg1 : (modAt t.schema.columns i (fun c => c.set_indexed t.idx.length bs)).get? i =
        some (c.set_indexed t.idx.length bs) := by
      rw [get?_modAt_self, hg]
      rfl
    have hcol1 : t1.schema.colAt i = c.set_indexed t.idx.length bs := by
      rw [ht1]
      exact colAt_eq_of_get? hg1
    have hnq : (t1.schema.colAt i).idx_state ≠ .UNINDEXED := by
      rw [hcol1]
      intro hq
      cases hq
    have hrm := remove_index_success hmap1 hnq
    have hcols2 : modAt (modAt t.schema.columns i
        (fun c => c.set_indexed t.idx.length bs)) i column_t.set_unindexed =
        t.schema.columns := by
      rw [modAt_modAt]
      apply modAt_eq_self
      intro a ha
      rw [hg] at ha
      cases ha
      have hcs : c.idx_state = .UNINDEXED := by
        rw [← hcol]
        exact hs
      cases c with
      | mk nm ty off st =>
        have hcs2 : st = .UNINDEXED := hcs
        subst hcs2
        rfl
    have hT2 : (t1.remove_index f).1 = { t with
        idx := t.idx ++ [{ key_width := kw, bucket_width := bw, entries := [] }],
        metadata := t.metadata ++ [.index_info t.idx.length f bs] } := by
      rw [congrArg Prod.fst hrm, ht1]
      simp [hcols2]
    have hn2 : ({ t with
        idx := t.idx ++ [{ key_width := kw, bucket_width := bw, entries := [] }],
        metadata := t.metadata ++ [.index_info t.idx.length f bs] } :
          dialog_table).schema.name_map_at f = some i := hn
    refine ⟨?_, ?_, ?_, ?_, ?_, ?_⟩
    · rw [add_index_already bs hmap1 hnq]
    · exact ⟨_, by rw [add_index_already bs hmap1 hnq]⟩
    · rw [hrm]
    · rw [hT2]
      exact congrArg Prod.snd (add_index_success bs hn2 hs hp)
    · rw [ht1]
      simp
    · refine ⟨i, hn, ?_⟩
      rw [hT2, ht1]
      have hres := congrArg Prod.fst (add_index_success bs hn2 hs hp)
      rw [hres]
      show (schema_t.mk (modAt t.schema.columns i _)).colAt i = _
      rw [colAt_modAt_self _ hg]
      show c.set_indexed _ bs = (t.schema.colAt i).set_indexed _ bs
      rw [hcol]

/-- Witness for C8: index, re-add fails and changes nothing, remove, then
re-add succeeds, on a concrete one-column table. -/
theorem claim_C8_remove_index_readd_witness :
    ((((init_table [("A", type_id.D_INT)]).add_index "A" 2).1.remove_index "A").1.add_index
      "A" 2).2 = .ok () ∧
    (((init_table [("A", type_id.D_INT)]).add_index "A" 2).1.add_index "A" 2).1 =
      ((init_table [("A", type_id.D_INT)]).add_index "A" 2).1 := by
  have H := (claim_C8_remove_index_readd (init_table [("A", type_id.D_INT)]) "A" 2).2.2.2
    ((init_table [("A", type_id.D_INT)]).add_index "A" 2).1 rfl
  exact ⟨H.2.2.2.1, H.1⟩

theorem runs_filters_length {ops : List table_op}
    (h : ∀ op ∈ ops, is_add_filter op = false) (t : dialog_table) :
    (runs t ops).filters.length = t.filters.length := by
  induction ops generalizing t with
  | nil => rfl
  | cons op ops ih =>
    show (runs (run t op) ops).filters.length = _
    rw [ih (fun o ho => h o (List.mem_cons_of_mem op ho)),
      run_filters_length_of_not_add_filter (h op (List.mem_cons_self op ops))]

theorem add_filter_ok_inv {t : dialog_table} {e : String} {w : Nat} {t1 : dialog_table}
    {id : Nat} (h : t.add_filter e w = (t1, .ok id)) :
    ∃ c, expression_compiler.compile e t.schema = .ok c ∧ id = t.filters.length ∧
      t1 = { t with
        filters := t.filters ++ [{ cexpr := c, monitor_ms := w, updates := [] }],
        metadata := t.metadata ++ [.filter_info t.filters.length e] } := by
  cases hc : expression_compiler.compile e t.schema with
  | error err =>
    simp only [dialog_table.add_filter, hc] at h
    exact absurd (congrArg Prod.snd h) (by simp)
  | ok c =>
    simp only [dialog_table.add_filter, hc] at h
    refine ⟨c, rfl, ?_, ?_⟩
    · have h2 := congrArg Prod.snd h
      simp at h2
      exact h2.symm
    · exact (congrArg Prod.fst h).symm

/-- C9: `add_filter(expression, window_ms)` propagates the expression
compiler's error for an unparseable expression, registering nothing (the
table is unchanged); on success it pushes a new filter with the given
window and empty history onto the registry, returns `filter_id` equal to
the registry's prior length (so consecutive successful calls, with any
non-`add_filter` operations in between, return consecutive ids), and
writes `(filter_id, expression)` to the metadata catalog. -/
theorem claim_C9_add_filter (t : dialog_table) (e : String) (w : Nat) :
    (∀ err, expression_compiler.compile e t.schema = .error err →
      t.add_filter e w = (t, .error err)) ∧
    (∀ c, expression_compiler.compile e t.schema = .ok c →
      t.add_filter e w =
        ({ t with
            filters := t.filters ++ [{ cexpr := c, monitor_ms := w, updates := [] }],
            metadata := t.metadata ++ [.filter_info t.filters.length e] },
         .ok t.filters.length)) ∧
    (∀ t1 id1, t.add_filter e w = (t1, .ok id1) →
      id1 = t.filters.length ∧
      (∀ ops, (∀ op ∈ ops, is_add_filter op = false) →
        ∀ e2 w2 t3 id2, (runs t1 ops).add_filter e2 w2 = (t3, .ok id2) →
          id2 = id1 + 1)) := by
  refine ⟨?_, ?_, ?_⟩
  · intro err hc
    unfold dialog_table.add_filter
    rw [hc]
  · intro c hc
    unfold dialog_table.add_filter
    rw [hc]
  · intro t1 id1 h
    obtain ⟨c, hc, hid, ht1⟩ := add_filter_ok_inv h
    refine ⟨hid, ?_⟩
    intro ops hops e2 w2 t3 id2 h2
    obtain ⟨c2, hc2, hid2, _⟩ := add_filter_ok_inv h2
    rw [hid2, runs_filters_length hops, ht1, hid]
    simp

/-- Witness for C9: two successful `add_filter` calls with an append in
between return ids 0 and 1. -/
theorem claim_C9_add_filter_witness :
    (0 : Nat) = (init_table [("A", type_id.D_CHAR)]).filters.length ∧ (1 : Nat) = 0 + 1 := by
  have H := (claim_C9_add_filter (init_table [("A", type_id.D_CHAR)]) "X" 3).2.2
    ((init_table [("A", type_id.D_CHAR)]).add_filter "X" 3).1 0 rfl
  refine ⟨H.1, ?_⟩
  exact H.2 [.op_append [1] 0] (by decide) "Y" 4
    ((runs ((init_table [("A", type_id.D_CHAR)]).add_filter "X" 3).1
      [.op_append [1] 0]).add_filter "Y" 4).1 1 rfl

theorem append_loglen (t : dialog_table) (d : List Nat) (ts : Nat) :
    ((t.append d ts).1).data_log.data.length = t.data_log.data.length + d.length := by
  rw [append_fields]
  simp

theorem append_all_snd_length (ds : List (List Nat)) (t : dialog_table) :
    (append_all t ds).2.length = ds.length := by
  induction ds generalizing t with
  | nil => rfl
  | cons d ds ih => simp [append_all, ih]

theorem append_all_snd_get? (ds : List (List Nat)) (t : dialog_table) (i : Nat)
    (h : i < ds.length) :
    (append_all t ds).2.get? i =
      some (t.data_log.data.length + ((ds.take i).map List.length).sum) := by
  induction ds generalizing t i with
  | nil => simp at h
  | cons d ds ih =>
    cases i with
    | zero => simp [append_all, append_snd]
    | succ n =>
      have hrec := ih (t.append d 0).1 n (by simpa using h)
      simp only [append_all, List.get?_cons_succ]
      rw [hrec, append_loglen]
      simp [Nat.add_assoc]

theorem append_all_rt (ds : List (List Nat)) (t : dialog_table) (h : ds ≠ []) :
    (append_all t ds).1.rt = t.data_log.data.length + (ds.map List.length).sum := by
  induction ds generalizing t with
  | nil => exact absurd rfl h
  | cons d ds ih =>
    cases ds with
    | nil =>
      show ((t.append d 0).1).rt = _
      rw [append_fields]
      simp
    | cons d2 ds2 =>
      show (append_all (t.append d 0).1 (d2 :: ds2)).1.rt = _
      rw [ih (t.append d 0).1 (by simp), append_loglen]
      simp [Nat.add_assoc]

theorem sum_take_lt {l : List Nat} (hpos : ∀ x ∈ l, 1 ≤ x) {i j : Nat} (hij : i < j)
    (hj : j ≤ l.length) : (l.take i).sum < (l.take j).sum := by
  have hdecomp : l.take j = l.take i ++ ((l.drop i).take (j - i)) := by
    rw [show j = i + (j - i) from by omega, List.take_add]
    simp
  rw [hdecomp, List.sum_append]
  have hlenpos : 0 < ((l.drop i).take (j - i)).length := by
    rw [List.length_take, List.length_drop]
    omega
  have hsum : 0 < ((l.drop i).take (j - i)).sum := by
    cases hmm : (l.drop i).take (j - i) with
    | nil => rw [hmm] at hlenpos; simp at hlenpos
    | cons x xs =>
      have hx : 1 ≤ x := by
        apply hpos
        apply List.drop_subset i l
        apply List.take_subset (j - i) (l.drop i)
        rw [hmm]
        exact List.mem_cons_self _ _
      simp
      omega
  omega

/-- C3 (amended): the i-th append of a sequence returns an offset equal to
the total length of all previously appended payloads (so offsets are
contiguous); right after the i-th append returns, the read tail and
`num_records()` equal that offset plus the i-th payload's length; and the
offsets are strictly increasing — hence pairwise distinct — provided
every payload is nonempty. (The unamended claim asserted distinctness
unconditionally; two zero-length appends return the same offset, see the
counterexample.) -/
theorem claim_C3_append_offsets (cols : List (String × type_id)) (ds : List (List Nat)) :
    (∀ i, i < ds.length →
      (append_all (init_table cols) ds).2.get? i =
        some (((ds.take i).map List.length).sum)) ∧
    (∀ i d, ds.get? i = some d →
      (append_all (init_table cols) (ds.take (i + 1))).1.rt =
        ((ds.take i).map List.length).sum + d.length ∧
      (append_all (init_table cols) (ds.take (i + 1))).1.num_records =
        ((ds.take i).map List.length).sum + d.length) ∧
    ((∀ d ∈ ds, d ≠ []) → List.Pairwise (· < ·) (append_all (init_table cols) ds).2) := by
  refine ⟨?_, ?_, ?_⟩
  · intro i h
    rw [append_all_snd_get? ds _ i h]
    simp [init_table]
  · intro i d hd
    have hi : i < ds.length := lt_length_of_get?_some hd
    have hne : ds.take (i + 1) ≠ [] := by
      intro hq
      rcases List.take_eq_nil_iff.mp hq with h1 | h1
      · exact Nat.succ_ne_zero i h1
      · rw [h1] at hi
        simp at hi
    have hrt := append_all_rt (ds.take (i + 1)) (init_table cols) hne
    have hd2 : ds[i]? = some d := by
      rw [← List.get?_eq_getElem?]
      exact hd
    have htk : ds.take (i + 1) = ds.take i ++ [d] := by
      rw [List.take_succ, hd2]
      rfl
    constructor
    · rw [htk] at hrt
      rw [htk, hrt]
      simp [init_table]
    · show (append_all (init_table cols) (ds.take (i + 1))).1.rt = _
      rw [htk] at hrt
      rw [htk, hrt]
      simp [init_table]
  · intro hpos
    rw [List.pairwise_iff_get]
    intro a b hab
    have hlen := append_all_snd_length ds (init_table cols)
    have ha1 : (a : Nat) < ds.length := by
      rw [← hlen]
      exact a.isLt
    have hb1 : (b : Nat) < ds.length := by
      rw [← hlen]
      exact b.isLt
    have ha := append_all_snd_get? ds (init_table cols) a ha1
    have hb := append_all_snd_get? ds (init_table cols) b hb1
    rw [List.get?_eq_get a.isLt] at ha
    rw [List.get?_eq_get b.isLt] at hb
    have ha2 := Option.some.inj ha
    have hb2 := Option.some.inj hb
    rw [ha2, hb2]
    have hposlen : ∀ x ∈ ds.map List.length, 1 ≤ x := by
      intro x hx
      obtain ⟨d, hdm, rfl⟩ := List.mem_map.mp hx
      have := hpos d hdm
      cases d with
      | nil => exact absurd rfl this
      | cons y ys => simp
    have hlt : ((ds.map List.length).take (a : Nat)).sum <
        ((ds.map List.length).take (b : Nat)).sum := by
      apply sum_take_lt hposlen hab
      rw [List.length_map]
      omega
    rw [← List.map_take, ← List.map_take] at hlt
    exact Nat.add_lt_add_left hlt (init_table cols).data_log.data.length

/-- Witness for C3 at a concrete two-append run. -/
theorem claim_C3_append_offsets_witness :
    (append_all (init_table [("A", type_id.D_CHAR)]) [[5], [6, 7]]).2.get? 1 =
      some (([[5], [6, 7]].take 1).map List.length).sum ∧
    List.Pairwise (· < ·) (append_all (init_table [("A", type_id.D_CHAR)]) [[5], [6, 7]]).2 :=
  ⟨(claim_C3_append_offsets [("A", type_id.D_CHAR)] [[5], [6, 7]]).1 1 (by decide),
   (claim_C3_append_offsets [("A", type_id.D_CHAR)] [[5], [6, 7]]).2.2 (by decide)⟩

/-- C3 counterexample: two zero-length appends both return offset 0, so
the returned offsets of a sequence of appends are not always pairwise
distinct. -/
theorem claim_C3_counterexample :
    (append_all (init_table [("A", type_id.D_CHAR)]) [[], []]).2 = [0, 0] ∧
    (append_all (init_table [("A", type_id.D_CHAR)]) [[], []]).2.get? 0 =
      (append_all (init_table [("A", type_id.D_CHAR)]) [[], []]).2.get? 1 ∧
    ¬ List.Pairwise (fun a b => a ≠ b)
      (append_all (init_table [("A", type_id.D_CHAR)]) [[], []]).2 := by
  refine ⟨rfl, rfl, ?_⟩
  intro hp
  rw [show (append_all (init_table [("A", type_id.D_CHAR)]) [[], []]).2 = [0, 0]
    from rfl] at hp
  exact (List.pairwise_cons.mp hp).1 0 (List.mem_cons_self _ _) rfl

theorem filters_get?_runs (ops : List table_op) :
    ∀ (t : dialog_table) (i : Nat) (f : filter), t.filters.get? i = some f →
    ∃ f2, (runs t ops).filters.get? i = some f2 ∧
      f2.updates = f.updates ++ append_recs t ops ∧
      f2.cexpr = f.cexpr ∧ f2.monitor_ms = f.monitor_ms := by
  induction ops with
  | nil =>
    intro t i f h
    exact ⟨f, h, by simp [append_recs], rfl, rfl⟩
  | cons op ops ih =>
    intro t i f h
    cases op with
    | op_append d ts =>
      have h2 : (run t (.op_append d ts)).filters.get? i =
          some (f.update (t.append_record d ts)) := by
        show ((t.append d ts).1).filters.get? i = _
        rw [append_filters, get?_map, h]
        rfl
      obtain ⟨f2, hg, hu, hc, hm⟩ := ih (run t (.op_append d ts)) i _ h2
      refine ⟨f2, hg, ?_, hc, hm⟩
      rw [hu]
      simp [filter.update, append_recs]
    | op_add_index fn bs =>
      have h2 : (run t (.op_add_index fn bs)).filters.get? i = some f := by
        show ((t.add_index fn bs).1).filters.get? i = some f
        rw [(add_index_frame t fn bs).2.2.1]
        exact h
      obtain ⟨f2, hg, hu, hc, hm⟩ := ih _ i f h2
      exact ⟨f2, hg, by rw [hu]; simp [append_recs], hc, hm⟩
    | op_remove_index fn =>
      have h2 : (run t (.op_remove_index fn)).filters.get? i = some f := by
        show ((t.remove_index fn).1).filters.get? i = some f
        rw [(remove_index_frame t fn).2.2.1]
        exact h
      obtain ⟨f2, hg, hu, hc, hm⟩ := ih _ i f h2
      exact ⟨f2, hg, by rw [hu]; simp [append_recs], hc, hm⟩
    | op_add_filter e w =>
      have h2 : (run t (.op_add_filter e w)).filters.get? i = some f := by
        show ((t.add_filter e w).1).filters.get? i = some f
        rcases add_filter_filters_cases t e w with hcs | ⟨c, hcs⟩
        · rw [hcs]
          exact h
        · rw [hcs, get?_append_left (lt_length_of_get?_some h)]
          exact h
      obtain ⟨f2, hg, hu, hc, hm⟩ := ih _ i f h2
      exact ⟨f2, hg, by rw [hu]; simp [append_recs], hc, hm⟩
    | op_add_trigger fid fn agg o th =>
      have h2 : (run t (.op_add_trigger fid fn agg o th)).filters.get? i = some f := by
        show ((t.add_trigger fid fn agg o th).1).filters.get? i = some f
        rw [(add_trigger_frame t fid fn agg o th).2.2.2.1]
        exact h
      obtain ⟨f2, hg, hu, hc, hm⟩ := ih _ i f h2
      exact ⟨f2, hg, by rw [hu]; simp [append_recs], hc, hm⟩

theorem append_recs_ge (ops : List table_op) : ∀ (t : dialog_table),
    ∀ r ∈ append_recs t ops, t.data_log.data.length ≤ r.log_offset := by
  induction ops with
  | nil =>
    intro t r hr
    simp [append_recs] at hr
  | cons op ops ih =>
    intro t r hr
    have hle := run_loglen_le t op
    cases op with
    | op_append d ts =>
      simp only [append_recs] at hr
      rcases List.mem_cons.mp hr with rfl | hr2
      · exact Nat.le_refl _
      · have := ih (run t (.op_append d ts)) r hr2
        omega
    | op_add_index fn bs =>
      simp only [append_recs] at hr
      have := ih _ r hr
      omega
    | op_remove_index fn =>
      simp only [append_recs] at hr
      have := ih _ r hr
      omega
    | op_add_filter e w =>
      simp only [append_recs] at hr
      have := ih _ r hr
      omega
    | op_add_trigger fid fn agg o th =>
      simp only [append_recs] at hr
      have := ih _ r hr
      omega

theorem append_recs_sorted (ops : List table_op) : ∀ (t : dialog_table),
    List.Pairwise (fun r1 r2 => r1.log_offset ≤ r2.log_offset) (append_recs t ops) := by
  induction ops with
  | nil =>
    intro t
    simp [append_recs]
  | cons op ops ih =>
    intro t
    cases op with
    | op_append d ts =>
      simp only [append_recs]
      refine List.Pairwise.cons ?_ (ih _)
      intro r hr
      have h1 := append_recs_ge ops (run t (.op_append d ts)) r hr
      have h2 := run_loglen_le t (.op_append d ts)
      show (t.append_record d ts).log_offset ≤ r.log_offset
      have h3 : (t.append_record d ts).log_offset = t.data_log.data.length := rfl
      omega
    | op_add_index fn bs =>
      simp only [append_recs]
      exact ih _
    | op_remove_index fn =>
      simp only [append_recs]
      exact ih _
    | op_add_filter e w =>
      simp only [append_recs]
      exact ih _
    | op_add_trigger fid fn agg o th =>
      simp only [append_recs]
      exact ih _

/-- C4: within one `append`, `update` is invoked exactly once on each
filter registered before that append, in filter-registration order
(ascending filter position), each invocation carrying the new record's
offset; and a filter registered by a successful `add_filter` has, after
any further operation sequence, an update history equal to exactly the
records of the appends issued after its registration, in execution order
— hence once per record, in ascending offset order, and never for records
appended before registration. -/
theorem claim_C4_filter_ordering (t : dialog_table) (e : String) (w : Nat) :
    (∀ (t2 : dialog_table) (d : List Nat) (ts : Nat),
      ((t2.append d ts).1).fcalls =
        t2.fcalls ++ (List.range t2.filters.length).map
          (fun i => (i, t2.data_log.data.length))) ∧
    (∀ t1 fid, t.add_filter e w = (t1, .ok fid) →
      fid = t.filters.length ∧
      ∀ ops, ∃ f2, (runs t1 ops).filters.get? fid = some f2 ∧
        f2.updates = append_recs t1 ops ∧
        List.Pairwise (fun r1 r2 => r1.log_offset ≤ r2.log_offset) f2.updates ∧
        (∀ r ∈ f2.updates, t1.data_log.data.length ≤ r.log_offset)) := by
  constructor
  · intro t2 d ts
    rw [append_fields]
  · intro t1 fid h
    obtain ⟨c, hc, hid, ht1⟩ := add_filter_ok_inv h
    refine ⟨hid, ?_⟩
    intro ops
    have hg : t1.filters.get? fid = some { cexpr := c, monitor_ms := w, updates := [] } := by
      rw [ht1, hid]
      rw [List.get?_eq_getElem?]
      exact List.getElem?_concat_length _ _
    obtain ⟨f2, hg2, hu, _, _⟩ := filters_get?_runs ops t1 fid _ hg
    have hu2 : f2.updates = append_recs t1 ops := by simpa using hu
    refine ⟨f2, hg2, hu2, ?_, ?_⟩
    · rw [hu2]
      exact append_recs_sorted ops t1
    · rw [hu2]
      exact append_recs_ge ops t1

/-- Witness for C4: a filter registered on a fresh table observes exactly
the one record appended after its registration. -/
theorem claim_C4_filter_ordering_witness :
    (0 : Nat) = (init_table [("A", type_id.D_CHAR)]).filters.length ∧
    ∃ f2, (runs ((init_table [("A", type_id.D_CHAR)]).add_filter "F" 2).1
        [.op_append [3] 5]).filters.get? 0 = some f2 ∧
      f2.updates = append_recs ((init_table [("A", type_id.D_CHAR)]).add_filter "F" 2).1
        [.op_append [3] 5] ∧
      List.Pairwise (fun r1 r2 => r1.log_offset ≤ r2.log_offset) f2.updates ∧
      (∀ r ∈ f2.updates,
        ((init_table [("A", type_id.D_CHAR)]).add_filter "F" 2).1.data_log.data.length ≤
          r.log_offset) := by
  have H := (claim_C4_filter_ordering (init_table [("A", type_id.D_CHAR)]) "F" 2).2
    ((init_table [("A", type_id.D_CHAR)]).add_filter "F" 2).1 0 rfl
  exact ⟨H.1, H.2 [.op_append [3] 5]⟩

theorem run_idx_length_le (t : dialog_table) (op : table_op) :
    t.idx.length ≤ (run t op).idx.length := by
  cases op with
  | op_append d ts =>
    show t.idx.length ≤ ((t.append d ts).1).idx.length
    rw [append_idx, insert_record_length]
  | op_add_index fn bs =>
    show t.idx.length ≤ ((t.add_index fn bs).1).idx.length
    rcases add_index_idx_cases t fn bs with hc | ⟨e2, _, hc⟩
    · rw [hc]
    · rw [hc]
      simp
  | op_remove_index fn =>
    show t.idx.length ≤ ((t.remove_index fn).1).idx.length
    rw [(remove_index_frame t fn).2.2.2.2.1]
  | op_add_filter e w =>
    show t.idx.length ≤ ((t.add_filter e w).1).idx.length
    rw [(add_filter_frame t e w).2.2.2.2.1]
  | op_add_trigger fid fn agg o th =>
    show t.idx.length ≤ ((t.add_trigger fid fn agg o th).1).idx.length
    rw [(add_trigger_frame t fid fn agg o th).2.2.2.2.1]

theorem prospective_inv (k L : Nat) (ops : List table_op) :
    ∀ (t : dialog_table), k < t.idx.length → L ≤ t.data_log.data.length →
    (∀ p ∈ entries_at t k, L ≤ p.2) →
    (∀ p ∈ entries_at (runs t ops) k, L ≤ p.2) := by
  induction ops with
  | nil =>
    intro t _ _ h3
    exact h3
  | cons op ops ih =>
    intro t h1 h2 h3
    apply ih (run t op)
    · exact Nat.lt_of_lt_of_le h1 (run_idx_length_le t op)
    · exact Nat.le_trans h2 (run_loglen_le t op)
    · intro p hp
      cases op with
      | op_append d ts =>
        have hp2 : p ∈ entries_of (insert_record t.idx (t.append_record d ts).fields
            t.data_log.data.length) k := by
          have hidx : (run t (.op_append d ts)).idx =
              insert_record t.idx (t.append_record d ts).fields t.data_log.data.length :=
            append_idx t d ts
          unfold entries_at at hp
          rwa [hidx] at hp
        rcases mem_entries_insert_record hp2 with h4 | h4
        · exact h3 p h4
        · omega
      | op_add_index fn bs =>
        have hp2 : p ∈ entries_at (t.add_index fn bs).1 k := hp
        unfold entries_at at hp2
        rcases add_index_idx_cases t fn bs with hc | ⟨e2, _, hc⟩
        · rw [hc] at hp2
          exact h3 p hp2
        · rw [hc] at hp2
          have heq : entries_of (t.idx ++ [e2]) k = entries_of t.idx k := by
            unfold entries_of
            rw [get?_append_left h1]
          rw [heq] at hp2
          exact h3 p hp2
      | op_remove_index fn =>
        have hp2 : p ∈ entries_at (t.remove_index fn).1 k := hp
        rw [entries_at_congr k (remove_index_frame t fn).2.2.2.2.1] at hp2
        exact h3 p hp2
      | op_add_filter e w =>
        have hp2 : p ∈ entries_at (t.add_filter e w).1 k := hp
        rw [entries_at_congr k (add_filter_frame t e w).2.2.2.2.1] at hp2
        exact h3 p hp2
      | op_add_trigger fid fn agg o th =>
        have hp2 : p ∈ entries_at (t.add_trigger fid fn agg o th).1 k := hp
        rw [entries_at_congr k (add_trigger_frame t fid fn agg o th).2.2.2.2.1] at hp2
        exact h3 p hp2

theorem insert_record_untouched (flds : List field_t) (idx : List radix_tree)
    (off k2 : Nat) (h : ∀ fl ∈ flds, fl.is_indexed = true → fl.index_id ≠ k2) :
    entries_of (insert_record idx flds off) k2 = entries_of idx k2 := by
  induction flds generalizing idx with
  | nil => rfl
  | cons f fs ih =>
    by_cases hf : f.is_indexed = true
    · simp only [insert_record, hf, if_pos]
      rw [ih _ (fun fl hm hi => h fl (List.mem_cons_of_mem f hm) hi)]
      exact entries_of_modAt_ne (fun hq => h f (List.mem_cons_self f fs) hf hq.symm)
    · simp only [insert_record, hf, ite_false]
      exact ih _ (fun fl hm hi => h fl (List.mem_cons_of_mem f hm) hi)

/-- C5: indexing is prospective only. After a successful
`add_index(field_name, bucket_size)` creating the index entry with id
`t.idx.length`, every `(key, offset)` pair ever present in that entry —
under any further operation sequence — has an offset at least the data
log length at `add_index` time, so records appended before the column
reached INDEXED are never retroactively indexed and a key lookup returns
only offsets of records appended afterwards, even if an earlier record's
value matches. Moreover the insertion loop touches an index entry only
through fields whose `is_indexed` flag is set and whose `index_id` names
that entry (the per-field check at insert time). -/
theorem claim_C5_index_prospectiveness (t : dialog_table) (f : String) (bs : Nat)
    (t1 : dialog_table) (h : t.add_index f bs = (t1, .ok ())) :
    (∀ ops, ∀ p ∈ entries_at (runs t1 ops) t.idx.length,
      t.data_log.data.length ≤ p.2) ∧
    (∀ (idx : List radix_tree) (flds : List field_t) (off k2 : Nat),
      (∀ fl ∈ flds, fl.is_indexed = true → fl.index_id ≠ k2) →
      entries_of (insert_record idx flds off) k2 = entries_of idx k2) := by
  constructor
  · intro ops
    obtain ⟨i, kw, bw, hn, hs, hp⟩ := add_index_ok_inv h
    have ht1 : t1 = { t with
        schema := ⟨modAt t.schema.columns i (fun c => c.set_indexed t.idx.length bs)⟩,
        idx := t.idx ++ [{ key_width := kw, bucket_width := bw, entries := [] }],
        metadata := t.metadata ++ [.index_info t.idx.length f bs] } := by
      have hfst := congrArg Prod.fst h
      rw [add_index_success bs hn hs hp] at hfst
      exact hfst.symm
    apply prospective_inv t.idx.length t.data_log.data.length ops t1
    · rw [ht1]
      simp
    · rw [ht1]
    · intro p hp2
      have hempty : entries_at t1 t.idx.length = [] := by
        unfold entries_at entries_of
        rw [ht1]
        show (((t.idx ++ [({ key_width := kw, bucket_width := bw, entries := [] } :
          radix_tree)]).get? t.idx.length).map radix_tree.entries).getD [] = []
        rw [List.get?_eq_getElem?, List.getElem?_concat_length]
        rfl
      rw [hempty] at hp2
      simp at hp2
  · exact fun idx flds off k2 hh => insert_record_untouched flds idx off k2 hh

/-- Witness for C5: with one record appended before `add_index` (offset 0)
and one after (offset 1), the new index entry's sole pair `([1], 1)` has
its offset bounded below by the log length at `add_index` time — the
pre-index record at offset 0 is absent. -/
theorem claim_C5_index_prospectiveness_witness :
    (((init_table [("A", type_id.D_CHAR)]).append [1] 0).1).data_log.data.length ≤
      ((([1], 1) : List Nat × Nat)).2 :=
  (claim_C5_index_prospectiveness ((init_table [("A", type_id.D_CHAR)]).append [1] 0).1
    "A" 2 ((((init_table [("A", type_id.D_CHAR)]).append [1] 0).1.add_index "A" 2).1)
    rfl).1 [.op_append [1] 0] ([1], 1) (by decide)

theorem applied_run_mono {t : dialog_table} (op : table_op) {a : append_info}
    (h : applied t a) : applied (run t op) a := by
  obtain ⟨h1, h2⟩ := h
  constructor
  · intro i hi
    exact updates_at_run_mono (h1 i hi)
  · intro fl hm hf
    exact entries_at_run_mono (h2 fl hm hf)

theorem is_indexed_state {c : column_t} (h : c.is_indexed = true) :
    ∃ id b, c.idx_state = .INDEXED id b ∧ c.index_id = id := by
  unfold column_t.is_indexed at h
  cases hc : c.idx_state with
  | UNINDEXED => rw [hc] at h; simp at h
  | INDEXING => rw [hc] at h; simp at h
  | INDEXED id b => exact ⟨id, b, rfl, by unfold column_t.index_id; rw [hc]⟩

theorem wf_run {t : dialog_table} (op : table_op) (h : wf_idx_ids t) :
    wf_idx_ids (run t op) := by
  cases op with
  | op_append d ts =>
    intro c hc id bs hst
    have hcols : (run t (.op_append d ts)).schema = t.schema := by
      show ((t.append d ts).1).schema = t.schema
      rw [append_fields]
    have hlen : (run t (.op_append d ts)).idx.length = t.idx.length := by
      show ((t.append d ts).1).idx.length = _
      rw [append_idx, insert_record_length]
    rw [hcols] at hc
    rw [hlen]
    exact h c hc id bs hst
  | op_add_index fn bs0 =>
    show wf_idx_ids (t.add_index fn bs0).1
    cases hn : t.schema.name_map_at fn with
    | none =>
      rw [add_index_none bs0 hn]
      exact h
    | some i =>
      by_cases hs : (t.schema.colAt i).idx_state = .UNINDEXED
      · cases hp : index_params (t.schema.colAt i).ty with
        | none =>
          rw [add_index_unsupported bs0 hn hs hp]
          exact h
        | some p =>
          cases p with
          | mk kw bw =>
            rw [add_index_success bs0 hn hs hp]
            intro c hc id bs hst
            simp only [List.length_append, List.length_cons, List.length_nil]
            rcases mem_modAt hc with hin | ⟨a2, _, rfl⟩
            · have := h c hin id bs hst
              omega
            · have hinj : indexing_state.INDEXED t.idx.length bs0 =
                  .INDEXED id bs := hst
              cases hinj
              omega
      · rw [add_index_already bs0 hn hs]
        exact h
  | op_remove_index fn =>
    show wf_idx_ids (t.remove_index fn).1
    cases hn : t.schema.name_map_at fn with
    | none =>
      rw [remove_index_none hn]
      exact h
    | some i =>
      by_cases hs : (t.schema.colAt i).idx_state = .UNINDEXED
      · rw [remove_index_no_index hn hs]
        exact h
      · rw [remove_index_success hn hs]
        intro c hc id bs hst
        rcases mem_modAt hc with hin | ⟨a2, _, rfl⟩
        · exact h c hin id bs hst
        · exact absurd hst (by simp [column_t.set_unindexed])
  | op_add_filter e w =>
    intro c hc id bs hst
    have hsch : (run t (.op_add_filter e w)).schema = t.schema :=
      (add_filter_frame t e w).2.2.1
    have hidx : (run t (.op_add_filter e w)).idx = t.idx :=
      (add_filter_frame t e w).2.2.2.2.1
    rw [hsch] at hc
    rw [hidx]
    exact h c hc id bs hst
  | op_add_trigger fid fn agg o th =>
    intro c hc id bs hst
    have hsch : (run t (.op_add_trigger fid fn agg o th)).schema = t.schema :=
      (add_trigger_frame t fid fn agg o th).2.2.1
    have hidx : (run t (.op_add_trigger fid fn agg o th)).idx = t.idx :=
      (add_trigger_frame t fid fn agg o th).2.2.2.2.1
    rw [hsch] at hc
    rw [hidx]
    exact h c hc id bs hst

theorem table_inv_frame_step {t2 : dialog_table} {p : dialog_table × List append_info}
    (hdl : t2.data_log = p.1.data_log) (hrt : t2.rt = p.1.rt)
    (hwf : wf_idx_ids t2) (happ : ∀ a ∈ p.2, applied t2 a)
    (h : table_inv p) : table_inv (t2, p.2) := by
  obtain ⟨h1, h2, h3, h4, h5, h6, h7⟩ := h
  exact ⟨by rw [hrt, hdl]; exact h1, by rw [hdl]; exact h2, by rw [hrt]; exact h3,
    by rw [hdl]; exact h4, h5, hwf, happ⟩

theorem table_inv_step (p : dialog_table × List append_info) (op : table_op)
    (h : table_inv p) : table_inv (step_h p op) := by
  cases op with
  | op_add_index fn bs =>
    show table_inv ((p.1.add_index fn bs).1, p.2)
    exact table_inv_frame_step (add_index_frame p.1 fn bs).1
      (add_index_frame p.1 fn bs).2.1 (wf_run (.op_add_index fn bs) h.2.2.2.2.2.1)
      (fun a ha => applied_run_mono (.op_add_index fn bs) (h.2.2.2.2.2.2 a ha)) h
  | op_remove_index fn =>
    show table_inv ((p.1.remove_index fn).1, p.2)
    exact table_inv_frame_step (remove_index_frame p.1 fn).1
      (remove_index_frame p.1 fn).2.1 (wf_run (.op_remove_index fn) h.2.2.2.2.2.1)
      (fun a ha => applied_run_mono (.op_remove_index fn) (h.2.2.2.2.2.2 a ha)) h
  | op_add_filter e w =>
    show table_inv ((p.1.add_filter e w).1, p.2)
    exact table_inv_frame_step (add_filter_frame p.1 e w).1
      (add_filter_frame p.1 e w).2.1 (wf_run (.op_add_filter e w) h.2.2.2.2.2.1)
      (fun a ha => applied_run_mono (.op_add_filter e w) (h.2.2.2.2.2.2 a ha)) h
  | op_add_trigger fid fn agg o th =>
    show table_inv ((p.1.add_trigger fid fn agg o th).1, p.2)
    exact table_inv_frame_step (add_trigger_frame p.1 fid fn agg o th).1
      (add_trigger_frame p.1 fid fn agg o th).2.1
      (wf_run (.op_add_trigger fid fn agg o th) h.2.2.2.2.2.1)
      (fun a ha => applied_run_mono (.op_add_trigger fid fn agg o th)
        (h.2.2.2.2.2.2 a ha)) h
  | op_append d ts =>
    obtain ⟨h1, h2, h3, h4, h5, h6, h7⟩ := h
    have hF := append_fields p.1 d ts
    have hlog : p.1.data_log.data.length = (p.2.map (fun a => a.data.length)).sum := by
      rw [h4, List.length_flatten, List.map_map]
      rfl
    show table_inv ((p.1.append d ts).1,
      p.2 ++ [{ offset := p.1.data_log.data.length, data := d, ts := ts,
                nfilters := p.1.filters.length, rcd := p.1.append_record d ts }])
    refine ⟨?_, ?_, ?_, ?_, ?_, ?_, ?_⟩
    · rw [hF]
      show p.1.data_log.data.length + d.length ≤
        max p.1.data_log.flushed (p.1.data_log.data.length + d.length)
      omega
    · rw [hF]
      show max p.1.data_log.flushed (p.1.data_log.data.length + d.length) ≤
        (p.1.data_log.data ++ d).length
      rw [List.length_append]
      omega
    · rw [hF]
      show p.1.data_log.data.length + d.length = _
      rw [List.map_append, List.sum_append, ← hlog]
      simp
    · rw [hF]
      show p.1.data_log.data ++ d = _
      rw [List.map_append, List.flatten_append, ← h4]
      simp
    · intro i a hga
      by_cases hi : i < p.2.length
      · rw [get?_append_left hi] at hga
        rw [List.take_append_of_le_length (Nat.le_of_lt hi)]
        exact h5 i a hga
      · have hil : i ≤ p.2.length := by
          by_contra hgt
          rw [List.get?_eq_none.mpr (by simp; omega)] at hga
          exact Option.noConfusion hga
        have hieq : i = p.2.length := by omega
        subst hieq
        rw [List.get?_eq_getElem?, List.getElem?_concat_length] at hga
        cases hga
        show p.1.data_log.data.length = _
        rw [List.take_left, hlog]
    · exact wf_run (.op_append d ts) h6
    · intro a ha
      rcases List.mem_append.mp ha with hold | hnew
      · exact applied_run_mono (.op_append d ts) (h7 a hold)
      · rw [List.mem_singleton] at hnew
        subst hnew
        constructor
        · intro i hi
          have hi2 : i < p.1.filters.length := hi
          have hgf : p.1.filters.get? i = some (p.1.filters.get ⟨i, hi2⟩) :=
            List.get?_eq_get hi2
          have hgt : ((p.1.append d ts).1).filters.get? i =
              some ((p.1.filters.get ⟨i, hi2⟩).update (p.1.append_record d ts)) := by
            rw [append_filters, get?_map, hgf]
            rfl
          show (p.1.append_record d ts) ∈ updates_at ((p.1.append d ts).1) i
          rw [updates_at_eq_of_get? hgt]
          simp [filter.update]
        · intro fl hm hf
          have hidx : ((p.1.append d ts).1).idx =
              insert_record p.1.idx (p.1.append_record d ts).fields
                p.1.data_log.data.length := append_idx p.1 d ts
          show (fl.get_key, p.1.data_log.data.length) ∈
            entries_at ((p.1.append d ts).1) fl.index_id
          unfold entries_at
          rw [hidx]
          apply insert_record_mem hm hf
          obtain ⟨c, hcm, hce⟩ := List.mem_map.mp hm
          obtain ⟨id, b, hcs, hcid⟩ := is_indexed_state (by
            rw [← hce] at hf
            exact hf)
          have hlt := h6 c hcm id b hcs
          rw [← hce]
          show c.index_id < p.1.idx.length
          rw [hcid]
          exact hlt

theorem table_inv_runs_h (ops : List table_op) :
    ∀ (p : dialog_table × List append_info), table_inv p → table_inv (runs_h p ops) := by
  induction ops with
  | nil => exact fun p h => h
  | cons op ops ih =>
    intro p h
    exact ih (step_h p op) (table_inv_step p op h)

theorem mk_columns_unindexed (cols : List (String × type_id)) :
    ∀ off, ∀ c ∈ mk_columns cols off, c.idx_state = .UNINDEXED := by
  induction cols with
  | nil =>
    intro off c hc
    simp [mk_columns] at hc
  | cons x cols ih =>
    intro off c hc
    cases x with
    | mk n ty =>
      rcases List.mem_cons.mp hc with rfl | hc2
      · rfl
      · exact ih _ c hc2

theorem table_inv_init (cols : List (String × type_id)) :
    table_inv (init_table cols, []) := by
  refine ⟨Nat.le_refl 0, Nat.zero_le 0, rfl, rfl, ?_, ?_, ?_⟩
  · intro i a hga
    simp at hga
  · intro c hc id bs hst
    have := mk_columns_unindexed cols 0 c hc
    rw [this] at hst
    exact absurd hst (by simp)
  · intro a ha
    simp at ha

theorem tiles_cover_aux (h : List append_info) :
    ∀ (base o : Nat),
    (∀ i a, h.get? i = some a →
      a.offset = base + ((h.take i).map (fun b => b.data.length)).sum) →
    base ≤ o → o < base + (h.map (fun a => a.data.length)).sum →
    ∃ a ∈ h, a.offset ≤ o ∧ o < a.offset + a.data.length := by
  induction h with
  | nil =>
    intro base o _ hlo hhi
    simp at hhi
    omega
  | cons a as ih =>
    intro base o hoff hlo hhi
    by_cases hcase : o < base + a.data.length
    · refine ⟨a, List.mem_cons_self a as, ?_, ?_⟩
      · have := hoff 0 a rfl
        simp at this
        omega
      · have := hoff 0 a rfl
        simp at this
        omega
    · have hoff2 : ∀ i b, as.get? i = some b →
          b.offset = (base + a.data.length) + ((as.take i).map (fun c => c.data.length)).sum := by
        intro i b hb
        have h9 := hoff (i + 1) b hb
        rw [List.take_succ_cons, List.map_cons, List.sum_cons] at h9
        omega
      obtain ⟨b, hbm, hb1, hb2⟩ := ih (base + a.data.length) o hoff2 (by omega)
        (by rw [List.map_cons, List.sum_cons] at hhi; omega)
      exact ⟨b, List.mem_cons_of_mem a hbm, hb1, hb2⟩

/-- C1: visibility completeness. In every state reachable by any sequence
of operations from a fresh table, every offset `o` below the read tail is
durable (below the flushed watermark) and lies inside an appended record
whose side effects are all present: the record was fed to every filter
registered when it was appended, and every indexed field's key was
inserted into its index entry. Within one `append`, the read tail is
unchanged through the log write, the filter updates, the index inserts
and the durability flush (steps 1-5), the flush covers the record's byte
range before the tail moves, and the final step changes only the read
tail, advancing it past `offset + length`. -/
theorem claim_C1_visibility_completeness (cols : List (String × type_id))
    (ops : List table_op) :
    (∀ o, o < (runs_h (init_table cols, []) ops).1.rt →
      o < (runs_h (init_table cols, []) ops).1.data_log.flushed ∧
      ∃ a ∈ (runs_h (init_table cols, []) ops).2,
        a.offset ≤ o ∧ o < a.offset + a.data.length ∧
        applied (runs_h (init_table cols, []) ops).1 a) ∧
    (∀ (t : dialog_table) (d : List Nat) (ts : Nat),
      (t.append_s1 d).rt = t.rt ∧
      (t.append_s2 d ts).rt = t.rt ∧
      (t.append_s3 d ts).rt = t.rt ∧
      (t.append_s4 d ts).rt = t.rt ∧
      t.data_log.data.length + d.length ≤ (t.append_s4 d ts).data_log.flushed ∧
      (t.append d ts).1 =
        { t.append_s4 d ts with rt := t.data_log.data.length + d.length } ∧
      (t.append d ts).2 = t.data_log.data.length) := by
  constructor
  · intro o ho
    have hinv := table_inv_runs_h ops (init_table cols, []) (table_inv_init cols)
    obtain ⟨h1, h2, h3, h4, h5, h6, h7⟩ := hinv
    refine ⟨by omega, ?_⟩
    have hoff : ∀ i a, (runs_h (init_table cols, []) ops).2.get? i = some a →
        a.offset = 0 +
          (((runs_h (init_table cols, []) ops).2.take i).map (fun b => b.data.length)).sum := by
      intro i a hga
      rw [h5 i a hga]
      omega
    obtain ⟨a, ham, ha1, ha2⟩ := tiles_cover_aux (runs_h (init_table cols, []) ops).2
      0 o hoff (Nat.zero_le o) (by rw [Nat.zero_add, ← h3]; exact ho)
    exact ⟨a, ham, ha1, ha2, h7 a ham⟩
  · intro t d ts
    refine ⟨rfl, rfl, rfl, rfl, ?_, rfl, rfl⟩
    show t.data_log.data.length + d.length ≤ max _ (t.data_log.data.length + d.length)
    exact Nat.le_max_right _ _

/-- Witness for C1: after registering a filter and appending one record,
offset 0 is visible, durable, and fully applied. -/
theorem claim_C1_visibility_completeness_witness :
    0 < (runs_h (init_table [("A", type_id.D_CHAR)], [])
        [.op_add_filter "F" 2, .op_append [3] 7]).1.data_log.flushed ∧
    ∃ a ∈ (runs_h (init_table [("A", type_id.D_CHAR)], [])
        [.op_add_filter "F" 2, .op_append [3] 7]).2,
      a.offset ≤ 0 ∧ 0 < a.offset + a.data.length ∧
      applied (runs_h (init_table [("A", type_id.D_CHAR)], [])
        [.op_add_filter "F" 2, .op_append [3] 7]).1 a :=
  (claim_C1_visibility_completeness [("A", type_id.D_CHAR)]
    [.op_add_filter "F" 2, .op_append [3] 7]).1 0 (by decide)

end Dialog
